import Mathlib

/-!
Verification of the `larch.lib.cache` module: an LIRS cache (recency stack `s`
plus resident-HIR queue `q`) and a size-weighted LRU cache.

Python's `OrderedDict` / `dict` are embedded as association lists
(`List (Nat × α)`), head = oldest entry, tail = most recently inserted.
The embedded operations mirror the dict methods used by the source:
`odPop` is `d.pop(key, default)`, `odSet` is `d[key] = value`
(update in place when present, append when absent), `odLookup` is
`d.get(key)`, head/tail access is `popitem(0)`/`popitem(False)`.
-/

/-- `d.pop(key, default)`: remove the first entry for `key`, returning its
value (`none` when absent) together with the remaining list. -/
def odPop : List (Nat × α) → Nat → Option α × List (Nat × α)
  | [], _ => (none, [])
  | (k0, v0) :: rest, key =>
    if k0 = key then (some v0, rest)
    else
      let r := odPop rest key
      (r.1, (k0, v0) :: r.2)

/-- `d[key] = value`: replace the value of the first entry for `key` in
place, or append a new entry at the tail when `key` is absent. -/
def odSet : List (Nat × α) → Nat → α → List (Nat × α)
  | [], k, v => [(k, v)]
  | (k0, v0) :: rest, k, v =>
    if k0 = k then (k, v) :: rest else (k0, v0) :: odSet rest k v

/-- `d.get(key)`: value of the first entry for `key`, if any. -/
def odLookup : List (Nat × α) → Nat → Option α
  | [], _ => none
  | (k0, v0) :: rest, key => if k0 = key then some v0 else odLookup rest key

/-- The keys of an association list, in order. -/
def keysOf (l : List (Nat × α)) : List Nat := l.map Prod.fst

/-- `q[key] = True` on the resident-HIR queue: a no-op when `key` is already
present (the stored value is always `True`), otherwise append at the tail. -/
def qPush (q : List Nat) (k : Nat) : List Nat :=
  if k ∈ q then q else q ++ [k]

/-- Block status stored in the recency stack: the source uses `0` for LIR
and `1` for HIR. -/
inductive Status where
  | lir : Status
  | hir : Status
deriving DecidableEq, Repr

/-- `LIRSStack.__init__`: capacities plus the two ordered structures. -/
structure LIRSStack where
  lirs : Nat
  hirs : Nat
  s : List (Nat × Status)
  q : List Nat
deriving Repr, DecidableEq

/-- `LIRSStack.prune`: drop entries from the head of `s` while their status
is HIR; stop at the first LIR head or when `s` is empty. -/
def pruneList : List (Nat × Status) → List (Nat × Status)
  | [] => []
  | (k, Status.lir) :: rest => (k, Status.lir) :: rest
  | (_, Status.hir) :: rest => pruneList rest

/-- `LIRSStack.prune` as a state transformer. -/
def LIRSStack.prune (st : LIRSStack) : LIRSStack :=
  { st with s := pruneList st.s }

/-- `LIRSStack.clear`. -/
def LIRSStack.clear (st : LIRSStack) : LIRSStack :=
  { st with s := [], q := [] }

/-- `LIRSStack.hit(key)`: record an access of `key`; returns the key evicted
from the front of `q` (at most one), if any, together with the new state.
Mirrors the three branches of the source: `key` LIR in `s`, `key` HIR in
`s`, and `key` absent from `s`. -/
def LIRSStack.hit (st : LIRSStack) (key : Nat) : Option Nat × LIRSStack :=
  match odPop st.s key with
  | (some Status.lir, s1) =>
    -- move to top of s, then prune
    (none, { st with s := pruneList (odSet s1 key Status.lir) })
  | (some Status.hir, s1) =>
    -- `q.pop(key, False)`: removal attempt; evict from the front of q only
    -- when key was a non-resident HIR block and q is at capacity
    let inq : Bool := decide (key ∈ st.q)
    let q1 := st.q.erase key
    let ev := if inq = false ∧ st.hirs ≤ q1.length ∧ 0 < st.hirs
              then q1.head? else none
    let q2 := if inq = false ∧ st.hirs ≤ q1.length ∧ 0 < st.hirs
              then q1.tail else q1
    -- `s[key] = 0` then `q[s.popitem(0)[0]] = True` then prune
    match odSet s1 key Status.lir with
    | [] => (ev, { st with s := [], q := q2 })  -- unreachable: odSet ≠ []
    | demoted :: srest =>
      (ev, { st with s := pruneList srest, q := qPush q2 demoted.1 })
  | (none, _) =>
    if key ∈ st.q then
      -- resident HIR block with no stack history: re-enter s with HIR
      -- status and move to the tail of q
      (none, { st with s := odSet st.s key Status.hir
                       q := qPush (st.q.erase key) key })
    else if st.s.length < st.lirs then
      -- bootstrap: below the LIR population target
      (none, { st with s := odSet st.s key Status.lir })
    else
      -- cold key: possibly evict the front of q, then enter s and q as HIR
      let ev := if st.hirs ≤ st.q.length ∧ 0 < st.hirs
                then st.q.head? else none
      let q2 := if st.hirs ≤ st.q.length ∧ 0 < st.hirs
                then st.q.tail else st.q
      (ev, { st with s := odSet st.s key Status.hir, q := qPush q2 key })

/-- `LIRSStack.remove(key)`: explicit deletion; when the removed key was
LIR, backfill from the front of `q` (or purge all HIR history from `s` when
`q` is empty); finally drop `key` from `q`. -/
def LIRSStack.remove (st : LIRSStack) (key : Nat) : LIRSStack :=
  let p := odPop st.s key
  match p.1 with
  | some Status.lir =>
    match st.q with
    | [] =>
      -- no resident HIR block: remove all HIR blocks from s
      { st with s := p.2.filter (fun e => e.2 == Status.lir), q := [] }
    | newLirs :: qrest =>
      -- promote the oldest resident HIR block to LIR
      { st with s := pruneList (odSet p.2 newLirs Status.lir)
                q := qrest.erase key }
  | _ => { st with s := p.2, q := st.q.erase key }

/-- One step of the `LIRSStack.evict` generator: drain the front of `q`
(also dropping the key from `s`); once `q` is empty, pop heads of `s`,
silently discarding HIR heads, and yield an LIR head after pruning. -/
def evictS : List (Nat × Status) → Option (Nat × List (Nat × Status))
  | [] => none
  | (k, Status.lir) :: rest => some (k, pruneList rest)
  | (_, Status.hir) :: rest => evictS rest

/-- One yielded key of `evict()` together with the state at the moment of
the yield. `none` when the generator is exhausted. -/
def LIRSStack.evictStep (st : LIRSStack) : Option (Nat × LIRSStack) :=
  match st.q with
  | k :: qrest => some (k, { st with s := (odPop st.s k).2, q := qrest })
  | [] =>
    match evictS st.s with
    | none => none
    | some (k, s2) => some (k, { st with s := s2 })

/-- Consume at most `n` keys from `evict()`: the yielded keys and the state
left behind when the generator is abandoned after them. -/
def evictRun : Nat → LIRSStack → List Nat × LIRSStack
  | 0, st => ([], st)
  | n + 1, st =>
    match st.evictStep with
    | none => ([], st)
    | some (k, st2) =>
      let r := evictRun n st2
      (k :: r.1, r.2)

/-- Fuel-indexed exhaustive run of `evict()`. -/
def evictAllF : Nat → LIRSStack → List Nat
  | 0, _ => []
  | n + 1, st =>
    match st.evictStep with
    | none => []
    | some (k, st2) => k :: evictAllF n st2

/-- Termination measure of the `evict()` generator. -/
def evictMeasure (st : LIRSStack) : Nat := st.q.length + st.s.length

/-- The full sequence of keys yielded by a fresh `evict()` generator run to
exhaustion. -/
def LIRSStack.evictAll (st : LIRSStack) : List Nat :=
  evictAllF (evictMeasure st) st

/-- `LIRSCache.__init__`: value storage plus the policy stack. -/
structure LIRSCache (V : Type) where
  data : List (Nat × V)
  stack : LIRSStack
deriving Repr, DecidableEq

/-- A fresh `LIRSCache(lirs, hirs)`. -/
def cacheInit (V : Type) (lirs hirs : Nat) : LIRSCache V :=
  ⟨[], ⟨lirs, hirs, [], []⟩⟩

/-- `LIRSCache._hit` exposing the evicted key: run the policy `hit` and drop
the evicted key (if any) from storage. -/
def LIRSCache.hitE (c : LIRSCache V) (key : Nat) : Option Nat × LIRSCache V :=
  match c.stack.hit key with
  | (none, stk) => (none, { c with stack := stk })
  | (some e, stk) => (some e, ⟨(odPop c.data e).2, stk⟩)

/-- `LIRSCache.__setitem__` exposing the evicted key: `_hit(key)` then store
the value under `key`. -/
def LIRSCache.setE (c : LIRSCache V) (key : Nat) (v : V) :
    Option Nat × LIRSCache V :=
  let r := c.hitE key
  (r.1, { r.2 with data := odSet r.2.data key v })

/-- `LIRSCache.get(key, default)`: return `default` without touching any
state when `key` is absent from storage; otherwise record a hit and return
the stored value.  (The final lookup cannot miss: a hit never evicts its own
key.) -/
def LIRSCache.get (c : LIRSCache V) (key : Nat) (default : V) :
    V × LIRSCache V :=
  match odLookup c.data key with
  | none => (default, c)
  | some _ =>
    let c1 := (c.hitE key).2
    ((odLookup c1.data key).getD default, c1)

/-- `LIRSCache.pop(key, default)`: purge the policy state first, then pop
from storage with a default. -/
def LIRSCache.pop (c : LIRSCache V) (key : Nat) (default : V) :
    V × LIRSCache V :=
  let stk := c.stack.remove key
  let r := odPop c.data key
  (r.1.getD default, ⟨r.2, stk⟩)

/-- `LIRSCache.__delitem__`: `del data[key]` raises `KeyError` (modelled as
`none`, no state change) when `key` is absent; otherwise remove from storage
and then purge the policy state. -/
def LIRSCache.del (c : LIRSCache V) (key : Nat) : Option (LIRSCache V) :=
  match odPop c.data key with
  | (none, _) => none
  | (some _, d) => some ⟨d, c.stack.remove key⟩

/-- `LIRSCache.clear`. -/
def LIRSCache.clear (c : LIRSCache V) : LIRSCache V :=
  ⟨[], c.stack.clear⟩

/-!
The size-weighted LRU cache.  Sizes are Python integers, embedded as `Int`.
The removal callback performs no state change relevant to the claims and is
omitted.
-/

/-- `LRUCache.__init__`: size budget, entry-count floor, sizing function,
ordered storage and the running size total. -/
structure LRUCache (V : Type) where
  max_size : Int
  min_count : Nat
  sizeof : V → Int
  d : List (Nat × V)
  size : Int

/-- A fresh `LRUCache(max_size, min_count, sizeof=sizeof)`. -/
def lruInit (max_size : Int) (min_count : Nat) (sizeof : V → Int) :
    LRUCache V :=
  ⟨max_size, min_count, sizeof, [], 0⟩

/-- `LRUCache._prune` with explicit fuel: while `size > max_size` and
`len(d) > min_count`, pop the head (least recently used) entry and subtract
its size.  Fuel `d.length` is enough since each iteration removes one
entry. -/
def lruPruneF : Nat → LRUCache V → LRUCache V
  | 0, c => c
  | n + 1, c =>
    if c.max_size < c.size ∧ c.min_count < c.d.length then
      match c.d with
      | [] => c  -- unreachable: length > min_count ≥ 0
      | (_, v) :: rest => lruPruneF n { c with d := rest, size := c.size - c.sizeof v }
    else c

/-- `LRUCache._prune`. -/
def lruPrune (c : LRUCache V) : LRUCache V := lruPruneF c.d.length c

/-- `LRUCache.__setitem__`: pop any existing entry (subtracting its size),
then store and prune only when the new value's size is below `max_size`. -/
def LRUCache.set (c : LRUCache V) (key : Nat) (v : V) : LRUCache V :=
  let c1 := match odPop c.d key with
    | (some old, d1) => { c with d := d1, size := c.size - c.sizeof old }
    | (none, _) => c
  if c1.sizeof v < c1.max_size then
    lruPrune { c1 with d := odSet c1.d key v, size := c1.size + c1.sizeof v }
  else c1

/-- `LRUCache.__getitem__`: raises `KeyError` (modelled as `none`, state
unchanged) when absent; otherwise move the entry to the tail and return
it. -/
def LRUCache.getOp (c : LRUCache V) (key : Nat) : Option V × LRUCache V :=
  match odPop c.d key with
  | (none, _) => (none, c)
  | (some v, d1) => (some v, { c with d := odSet d1 key v })

/-- `LRUCache.__delitem__`: raises `KeyError` (modelled as `none`) when
absent; otherwise remove the entry and subtract its size. -/
def LRUCache.delOp (c : LRUCache V) (key : Nat) : Option (LRUCache V) :=
  match odPop c.d key with
  | (none, _) => none
  | (some v, d1) => some { c with d := d1, size := c.size - c.sizeof v }

/-- `LRUCache.clear`: empty the storage and reset the size total. -/
def LRUCache.clear (c : LRUCache V) : LRUCache V :=
  { c with d := [], size := 0 }

/-!
Invariant predicates.
-/

/-- Keys of the recency stack are pairwise distinct (an `OrderedDict`
cannot hold duplicate keys). -/
def nodupKeys (l : List (Nat × α)) : Prop := (keysOf l).Nodup

instance (l : List (Nat × α)) : Decidable (nodupKeys l) :=
  inferInstanceAs (Decidable ((keysOf l).Nodup))

/-- Invariant I1: when `s` is non-empty its head (oldest) entry is LIR. -/
def headLIR : List (Nat × Status) → Prop
  | [] => True
  | p :: _ => p.2 = Status.lir

instance : (l : List (Nat × Status)) → Decidable (headLIR l)
  | [] => .isTrue trivial
  | p :: _ => inferInstanceAs (Decidable (p.2 = Status.lir))

/-- Every stack entry whose key sits in `q` has HIR status: resident HIR
blocks are never recorded as LIR in `s`. -/
def qHir (st : LIRSStack) : Prop :=
  ∀ p ∈ st.s, p.1 ∈ st.q → p.2 = Status.hir

instance (st : LIRSStack) : Decidable (qHir st) :=
  decidable_of_iff (∀ p ∈ st.s, p.1 ∉ st.q ∨ p.2 = Status.hir) (by
    constructor
    · intro h p hp hq
      rcases h p hp with hx | hx
      · exact absurd hq hx
      · exact hx
    · intro h p hp
      by_cases hq : p.1 ∈ st.q
      · exact Or.inr (h p hp hq)
      · exact Or.inl hq)

/-- When `q` is non-empty, `s` holds at least one LIR entry. -/
def hasLirIfQ (st : LIRSStack) : Prop :=
  st.q = [] ∨ ∃ p ∈ st.s, p.2 = Status.lir

instance (st : LIRSStack) : Decidable (hasLirIfQ st) :=
  inferInstanceAs (Decidable (st.q = [] ∨ ∃ p ∈ st.s, p.2 = Status.lir))

/-- Basic structural invariant of the stack, independent of capacities. -/
def Inv0 (st : LIRSStack) : Prop :=
  nodupKeys st.s ∧ st.q.Nodup ∧ qHir st

instance (st : LIRSStack) : Decidable (Inv0 st) :=
  inferInstanceAs (Decidable (nodupKeys st.s ∧ st.q.Nodup ∧ qHir st))

/-- Full stack invariant (holds on states reachable with
`lirs_capacity ≥ 1`): `Inv0` plus invariant I1, the LIR witness for a
non-empty queue, and the queue-capacity bound. -/
def Inv1 (st : LIRSStack) : Prop :=
  Inv0 st ∧ headLIR st.s ∧ hasLirIfQ st ∧
    (0 < st.hirs → st.q.length ≤ st.hirs)

instance (st : LIRSStack) : Decidable (Inv1 st) :=
  inferInstanceAs (Decidable (Inv0 st ∧ headLIR st.s ∧ hasLirIfQ st ∧
    (0 < st.hirs → st.q.length ≤ st.hirs)))

/-- Reachable stack states: a fresh stack followed by any sequence of
`hit`, `remove`, `prune`, `clear` and (partially consumed) `evict` steps. -/
inductive SReach : LIRSStack → Prop where
  | init (l h : Nat) : SReach ⟨l, h, [], []⟩
  | hit {st} (k : Nat) : SReach st → SReach (st.hit k).2
  | remove {st} (k : Nat) : SReach st → SReach (st.remove k)
  | prune {st} : SReach st → SReach st.prune
  | clear {st} : SReach st → SReach st.clear
  | estep {st k st2} : SReach st → st.evictStep = some (k, st2) → SReach st2

/-- Reachable cache states: a fresh cache followed by any sequence of
`get`, `set`, `delete`, `pop` and `clear` operations. -/
inductive CReach {V : Type} : LIRSCache V → Prop where
  | init (l h : Nat) : CReach ⟨[], ⟨l, h, [], []⟩⟩
  | get {c} (k : Nat) (d : V) : CReach c → CReach (c.get k d).2
  | set {c} (k : Nat) (v : V) : CReach c → CReach (c.setE k v).2
  | del {c c2} (k : Nat) : CReach c → c.del k = some c2 → CReach c2
  | pop {c} (k : Nat) (d : V) : CReach c → CReach (c.pop k d).2
  | clear {c} : CReach c → CReach c.clear

/-- Reachable LRU states: a fresh cache followed by any sequence of `set`,
`get`, `delete` and `clear` operations (pruning runs inside `set`). -/
inductive LReach {V : Type} : LRUCache V → Prop where
  | init (m : Int) (mc : Nat) (f : V → Int) : LReach (lruInit m mc f)
  | set {c} (k : Nat) (v : V) : LReach c → LReach (c.set k v)
  | get {c} (k : Nat) : LReach c → LReach (c.getOp k).2
  | del {c c2} (k : Nat) : LReach c → c.delOp k = some c2 → LReach c2
  | clear {c} : LReach c → LReach c.clear

/-- The sum of `sizeof` over the currently stored values. -/
def sumSz (c : LRUCache V) : Int :=
  (c.d.map (fun p => c.sizeof p.2)).sum

/-- Cache-level invariant: the stack invariant plus residency of every
queue member and every LIR block (invariant I2 and its LIR counterpart). -/
def CInv {V : Type} (c : LIRSCache V) : Prop :=
  Inv1 c.stack ∧ (∀ k ∈ c.stack.q, k ∈ keysOf c.data) ∧
    (∀ a : Nat, (a, Status.lir) ∈ c.stack.s → a ∈ keysOf c.data)

/-- LRU invariant: distinct keys and exact size accounting. -/
def LInv {V : Type} (c : LRUCache V) : Prop :=
  nodupKeys c.d ∧ c.size = sumSz c




/-!
Concrete states used by the claim theorems, their witnesses and
counterexamples.
-/

/-- Reference scenario (mirrored by the test suite): capacities `(3, 2)`,
keys 8,4,1,8,4,9,6,1,2,3,5 each stored once. -/
def demoCache : LIRSCache Bool :=
  [8, 4, 1, 8, 4, 9, 6, 1, 2, 3, 5].foldl
    (fun c k => (c.setE k true).2) (cacheInit Bool 3 2)

/-- The scenario cache after touching keys 4, 8, 3, 5 (reads). -/
def demoTouched : LIRSCache Bool :=
  [4, 8, 3, 5].foldl (fun c k => (c.get k true).2) demoCache

/-- LRU cache with `max_size = 10`, `min_count = 0`, identity `sizeof`,
holding key 1 with value (and size) 5. -/
def lruEx : LRUCache Int := (lruInit 10 0 (fun v : Int => v)).set 1 5

/-- LRU state over the size budget while at the entry-count floor. -/
def lruFloorEx : LRUCache Int :=
  ⟨5, 2, (fun v : Int => v), [(1, 3), (2, 4)], 7⟩

/-- LIRS cache with capacities `(1, 1)` after storing keys 1, 2, 3: key 2
has been evicted from storage but is still tracked in `s` as non-resident
HIR. -/
def c3state : LIRSCache Bool :=
  [1, 2, 3].foldl (fun c k => (c.setE k true).2) (cacheInit Bool 1 1)

/-- Stack created with `lirs_capacity = 0` after a single hit: the head of
`s` is an HIR entry. -/
def c4bad : LIRSStack := ((⟨0, 1, [], []⟩ : LIRSStack).hit 5).2

/-- Cache created with `lirs_capacity = 0` after storing 1, 2, 3, 1: key 2
sits in `q` but is no longer in storage. -/
def c5state : LIRSCache Bool :=
  [1, 2, 3, 1].foldl (fun c k => (c.setE k true).2) (cacheInit Bool 0 1)

/-- Cache with capacities `(1, 1)` holding only key 1. -/
def smallCache : LIRSCache Bool := ((cacheInit Bool 1 1).setE 1 true).2

/-!
Lemmas about the ordered-dict primitives and the queue/stack helpers.
-/

theorem keysOf_nil : keysOf ([] : List (Nat × α)) = [] := rfl

theorem keysOf_cons (p : Nat × α) (l : List (Nat × α)) :
    keysOf (p :: l) = p.1 :: keysOf l := rfl

theorem keysOf_append (l1 l2 : List (Nat × α)) :
    keysOf (l1 ++ l2) = keysOf l1 ++ keysOf l2 := List.map_append _ _ _

theorem odPop_sublist (l : List (Nat × α)) (k : Nat) :
    (odPop l k).2.Sublist l := by
  induction l with
  | nil => simp [odPop]
  | cons p rest ih =>
    obtain ⟨k0, v0⟩ := p
    by_cases h : k0 = k
    · simp only [odPop, if_pos h]
      exact List.sublist_cons_self _ _
    · simpa [odPop, h] using ih.cons₂ ((k0, v0))

theorem odPop_fst_eq_none_iff (l : List (Nat × α)) (k : Nat) :
    (odPop l k).1 = none ↔ k ∉ keysOf l := by
  induction l with
  | nil => simp [odPop, keysOf_nil]
  | cons p rest ih =>
    obtain ⟨k0, v0⟩ := p
    by_cases h : k0 = k
    · simp [odPop, h, keysOf_cons]
    · simp only [odPop, if_neg h, keysOf_cons, List.mem_cons, not_or]
      rw [ih]
      exact ⟨fun hn => ⟨fun he => h he.symm, hn⟩, fun hn => hn.2⟩

theorem odPop_none_eq {l : List (Nat × α)} {k : Nat} (h : k ∉ keysOf l) :
    (odPop l k).2 = l := by
  induction l with
  | nil => simp [odPop]
  | cons p rest ih =>
    obtain ⟨k0, v0⟩ := p
    simp only [keysOf_cons, List.mem_cons, not_or] at h
    have h1 : ¬ k0 = k := fun he => h.1 he.symm
    simp [odPop, h1, ih h.2]

theorem mem_odPop_of_ne {l : List (Nat × α)} {k : Nat} {p : Nat × α}
    (hp : p ∈ l) (hne : p.1 ≠ k) : p ∈ (odPop l k).2 := by
  induction l with
  | nil => simp at hp
  | cons e rest ih =>
    obtain ⟨k0, v0⟩ := e
    rcases List.mem_cons.1 hp with h1 | h1
    · have : ¬ k0 = k := by subst h1; simpa using hne
      simp [odPop, this, h1]
    · by_cases h : k0 = k
      · simpa [odPop, h] using h1
      · simpa [odPop, h] using Or.inr (ih h1)

theorem mem_of_mem_odPop {l : List (Nat × α)} {k : Nat} {p : Nat × α}
    (hp : p ∈ (odPop l k).2) : p ∈ l :=
  (odPop_sublist l k).mem hp

theorem keysOf_sublist {l1 l2 : List (Nat × α)} (h : l1.Sublist l2) :
    (keysOf l1).Sublist (keysOf l2) := h.map Prod.fst

theorem nodupKeys_odPop {l : List (Nat × α)} (k : Nat)
    (h : nodupKeys l) : nodupKeys (odPop l k).2 :=
  h.sublist (keysOf_sublist (odPop_sublist l k))

theorem nodupKeys_sublist {l1 l2 : List (Nat × α)} (h : l1.Sublist l2)
    (h2 : nodupKeys l2) : nodupKeys l1 :=
  h2.sublist (keysOf_sublist h)

theorem not_mem_keys_odPop {l : List (Nat × α)} {k : Nat}
    (h : nodupKeys l) : k ∉ keysOf (odPop l k).2 := by
  induction l with
  | nil => simp [odPop, keysOf_nil]
  | cons p rest ih =>
    obtain ⟨k0, v0⟩ := p
    simp only [nodupKeys, keysOf_cons, List.nodup_cons] at h
    by_cases he : k0 = k
    · subst he
      simp only [odPop, if_pos rfl]
      exact h.1
    · simp only [odPop, if_neg he, keysOf_cons, List.mem_cons, not_or]
      exact ⟨fun hc => he hc.symm, ih h.2⟩

theorem mem_keysOf {l : List (Nat × α)} {a : Nat} :
    a ∈ keysOf l ↔ ∃ v, (a, v) ∈ l := by
  simp only [keysOf, List.mem_map]
  constructor
  · rintro ⟨⟨k0, v0⟩, hm, rfl⟩
    exact ⟨v0, hm⟩
  · rintro ⟨v, hv⟩
    exact ⟨(a, v), hv, rfl⟩

theorem odPop_some_mem {l : List (Nat × α)} {k : Nat} {v : α}
    (h : (odPop l k).1 = some v) : (k, v) ∈ l := by
  induction l with
  | nil => simp [odPop] at h
  | cons p rest ih =>
    obtain ⟨k0, v0⟩ := p
    by_cases he : k0 = k
    · simp only [odPop, if_pos he, Option.some.injEq] at h
      subst he h; exact List.mem_cons_self _ _
    · simp only [odPop, if_neg he] at h
      exact List.mem_cons_of_mem _ (ih h)

theorem odPop_some_length {l : List (Nat × α)} {k : Nat} {v : α}
    (h : (odPop l k).1 = some v) : (odPop l k).2.length + 1 = l.length := by
  induction l with
  | nil => simp [odPop] at h
  | cons p rest ih =>
    obtain ⟨k0, v0⟩ := p
    by_cases he : k0 = k
    · simp [odPop, he]
    · simp only [odPop, if_neg he] at h ⊢
      simpa using ih h

theorem odPop_some_sum (f : Nat × α → Int) {l : List (Nat × α)} {k : Nat}
    {v : α} (h : (odPop l k).1 = some v) :
    (l.map f).sum = f (k, v) + (((odPop l k).2).map f).sum := by
  induction l with
  | nil => simp [odPop] at h
  | cons p rest ih =>
    obtain ⟨k0, v0⟩ := p
    by_cases he : k0 = k
    · simp only [odPop, if_pos he, Option.some.injEq] at h
      subst he h
      simp [odPop]
    · simp only [odPop, if_neg he] at h ⊢
      simp only [List.map_cons, List.sum_cons, ih h]
      ring

theorem odSet_ne_nil (l : List (Nat × α)) (k : Nat) (v : α) :
    odSet l k v ≠ [] := by
  cases l with
  | nil => simp [odSet]
  | cons p rest =>
    obtain ⟨k0, v0⟩ := p
    by_cases h : k0 = k <;> simp [odSet, h]

theorem mem_odSet_self (l : List (Nat × α)) (k : Nat) (v : α) :
    (k, v) ∈ odSet l k v := by
  induction l with
  | nil => simp [odSet]
  | cons p rest ih =>
    obtain ⟨k0, v0⟩ := p
    by_cases h : k0 = k
    · simp [odSet, h]
    · simp only [odSet, if_neg h]
      exact List.mem_cons_of_mem _ ih

theorem mem_of_mem_odSet {l : List (Nat × α)} {k : Nat} {v : α}
    {p : Nat × α} (hp : p ∈ odSet l k v) : p ∈ l ∨ p = (k, v) := by
  induction l with
  | nil => simpa [odSet] using hp
  | cons e rest ih =>
    obtain ⟨k0, v0⟩ := e
    by_cases h : k0 = k
    · simp only [odSet, if_pos h, List.mem_cons] at hp
      rcases hp with hp | hp
      · exact Or.inr hp
      · exact Or.inl (List.mem_cons_of_mem _ hp)
    · simp only [odSet, if_neg h, List.mem_cons] at hp
      rcases hp with hp | hp
      · exact Or.inl (by simp [hp])
      · rcases ih hp with h2 | h2
        · exact Or.inl (List.mem_cons_of_mem _ h2)
        · exact Or.inr h2

theorem mem_odSet_of_ne {l : List (Nat × α)} {k : Nat} {v : α}
    {p : Nat × α} (hp : p ∈ l) (hne : p.1 ≠ k) : p ∈ odSet l k v := by
  induction l with
  | nil => simp at hp
  | cons e rest ih =>
    obtain ⟨k0, v0⟩ := e
    rcases List.mem_cons.1 hp with h1 | h1
    · have hk : ¬ k0 = k := by subst h1; simpa using hne
      simp [odSet, hk, h1]
    · by_cases h : k0 = k
      · simp only [odSet, if_pos h]
        exact List.mem_cons_of_mem _ h1
      · simp only [odSet, if_neg h]
        exact List.mem_cons_of_mem _ (ih h1)

theorem keysOf_odSet (l : List (Nat × α)) (k : Nat) (v : α) :
    keysOf (odSet l k v) =
      if k ∈ keysOf l then keysOf l else keysOf l ++ [k] := by
  induction l with
  | nil => simp [odSet, keysOf]
  | cons e rest ih =>
    obtain ⟨k0, v0⟩ := e
    by_cases h : k0 = k
    · subst h; simp [odSet, keysOf_cons]
    · simp only [odSet, if_neg h, keysOf_cons, List.mem_cons]
      have h2 : ¬ k = k0 := fun he => h he.symm
      by_cases hk : k ∈ keysOf rest
      · simp [ih, hk, h2]
      · simp [ih, hk, h2]

theorem nodupKeys_odSet {l : List (Nat × α)} (k : Nat) (v : α)
    (h : nodupKeys l) : nodupKeys (odSet l k v) := by
  unfold nodupKeys at h ⊢
  rw [keysOf_odSet]
  by_cases hk : k ∈ keysOf l
  · simp [hk, h]
  · simp [hk, List.nodup_append, h, hk]

theorem odSet_of_not_mem {l : List (Nat × α)} {k : Nat} (v : α)
    (h : k ∉ keysOf l) : odSet l k v = l ++ [(k, v)] := by
  induction l with
  | nil => simp [odSet]
  | cons e rest ih =>
    obtain ⟨k0, v0⟩ := e
    simp only [keysOf_cons, List.mem_cons, not_or] at h
    have h1 : ¬ k0 = k := fun he => h.1 he.symm
    simp [odSet, h1, ih h.2]

theorem odLookup_eq_none_iff (l : List (Nat × α)) (k : Nat) :
    odLookup l k = none ↔ k ∉ keysOf l := by
  induction l with
  | nil => simp [odLookup, keysOf_nil]
  | cons e rest ih =>
    obtain ⟨k0, v0⟩ := e
    by_cases h : k0 = k
    · simp [odLookup, h, keysOf_cons]
    · simp only [odLookup, if_neg h, keysOf_cons, List.mem_cons, not_or]
      rw [ih]
      exact ⟨fun hn => ⟨fun he => h he.symm, hn⟩, fun hn => hn.2⟩

theorem odLookup_odSet_self (l : List (Nat × α)) (k : Nat) (v : α) :
    odLookup (odSet l k v) k = some v := by
  induction l with
  | nil => simp [odSet, odLookup]
  | cons e rest ih =>
    obtain ⟨k0, v0⟩ := e
    by_cases h : k0 = k <;> simp [odSet, odLookup, h, ih]

theorem pruneList_sublist (l : List (Nat × Status)) :
    (pruneList l).Sublist l := by
  induction l with
  | nil => simp [pruneList]
  | cons p rest ih =>
    obtain ⟨k, st⟩ := p
    cases st with
    | lir => simp [pruneList]
    | hir => exact ih.trans (List.sublist_cons_self _ _)

theorem headLIR_pruneList (l : List (Nat × Status)) :
    headLIR (pruneList l) := by
  induction l with
  | nil => trivial
  | cons p rest ih =>
    obtain ⟨k, st⟩ := p
    cases st with
    | lir => simp [pruneList, headLIR]
    | hir => simpa [pruneList] using ih

theorem mem_pruneList_lir {l : List (Nat × Status)} {a : Nat}
    (h : (a, Status.lir) ∈ l) : (a, Status.lir) ∈ pruneList l := by
  induction l with
  | nil => simp at h
  | cons p rest ih =>
    obtain ⟨k, st⟩ := p
    cases st with
    | lir => simpa [pruneList] using h
    | hir =>
      rcases List.mem_cons.1 h with h1 | h1
      · exact absurd (congrArg Prod.snd h1) (by simp)
      · simpa [pruneList] using ih h1

theorem pruneList_length_le (l : List (Nat × Status)) :
    (pruneList l).length ≤ l.length :=
  (pruneList_sublist l).length_le

theorem mem_qPush {q : List Nat} {k a : Nat} :
    a ∈ qPush q k ↔ a ∈ q ∨ a = k := by
  by_cases h : k ∈ q
  · simp only [qPush, if_pos h]
    exact ⟨Or.inl, fun hc => hc.elim id (fun he => he ▸ h)⟩
  · simp [qPush, h]

theorem nodup_qPush {q : List Nat} (k : Nat) (h : q.Nodup) :
    (qPush q k).Nodup := by
  by_cases hk : k ∈ q
  · simpa [qPush, hk] using h
  · simp [qPush, hk, List.nodup_append, h]

theorem length_qPush (q : List Nat) (k : Nat) :
    (qPush q k).length ≤ q.length + 1 := by
  by_cases hk : k ∈ q <;> simp [qPush, hk]

theorem qPush_ne_nil (q : List Nat) (k : Nat) : qPush q k ≠ [] := by
  by_cases hk : k ∈ q
  · simp only [qPush, if_pos hk]
    exact List.ne_nil_of_mem hk
  · simp [qPush, hk]

theorem headLIR_append {l l2 : List (Nat × Status)} (hne : l ≠ [])
    (h : headLIR l) : headLIR (l ++ l2) := by
  cases l with
  | nil => exact absurd rfl hne
  | cons p rest => exact h

/-!
The `evict()` generator: prefix stability and invariant preservation.
-/

theorem evictS_sublist {l : List (Nat × Status)} {k : Nat}
    {s2 : List (Nat × Status)} (h : evictS l = some (k, s2)) :
    s2.Sublist l := by
  induction l with
  | nil => simp [evictS] at h
  | cons p rest ih =>
    obtain ⟨k0, st0⟩ := p
    cases st0 with
    | lir =>
      simp only [evictS, Option.some.injEq, Prod.mk.injEq] at h
      rw [← h.2]
      exact (pruneList_sublist rest).trans (List.sublist_cons_self _ _)
    | hir =>
      simp only [evictS] at h
      exact (ih h).trans (List.sublist_cons_self _ _)

theorem evictS_some_lt {l : List (Nat × Status)} {k : Nat}
    {s2 : List (Nat × Status)} (h : evictS l = some (k, s2)) :
    s2.length < l.length := by
  induction l with
  | nil => simp [evictS] at h
  | cons p rest ih =>
    obtain ⟨k0, st0⟩ := p
    cases st0 with
    | lir =>
      simp only [evictS, Option.some.injEq, Prod.mk.injEq] at h
      rw [← h.2]
      exact Nat.lt_succ_of_le (pruneList_length_le rest)
    | hir =>
      simp only [evictS] at h
      exact Nat.lt_succ_of_lt (ih h)

theorem evictS_headLIR {l : List (Nat × Status)} {k : Nat}
    {s2 : List (Nat × Status)} (h : evictS l = some (k, s2)) :
    headLIR s2 := by
  induction l with
  | nil => simp [evictS] at h
  | cons p rest ih =>
    obtain ⟨k0, st0⟩ := p
    cases st0 with
    | lir =>
      simp only [evictS, Option.some.injEq, Prod.mk.injEq] at h
      rw [← h.2]
      exact headLIR_pruneList rest
    | hir =>
      simp only [evictS] at h
      exact ih h

theorem evictStep_lt {st : LIRSStack} {k : Nat} {st2 : LIRSStack}
    (h : st.evictStep = some (k, st2)) :
    evictMeasure st2 < evictMeasure st := by
  unfold LIRSStack.evictStep at h
  cases hq : st.q with
  | cons k0 qrest =>
    rw [hq] at h
    simp only [Option.some.injEq, Prod.mk.injEq] at h
    rw [← h.2]
    simp only [evictMeasure, hq]
    have := (odPop_sublist st.s k0).length_le
    simp only [List.length_cons]
    omega
  | nil =>
    rw [hq] at h
    cases hs : evictS st.s with
    | none => rw [hs] at h; simp at h
    | some r =>
      obtain ⟨k1, s2⟩ := r
      rw [hs] at h
      simp only [Option.some.injEq, Prod.mk.injEq] at h
      rw [← h.2]
      simp only [evictMeasure, hq]
      have := evictS_some_lt hs
      omega

theorem evictAllF_none {st : LIRSStack} (h : st.evictStep = none) :
    ∀ m, evictAllF m st = [] := by
  intro m
  cases m with
  | zero => rfl
  | succ n => simp [evictAllF, h]

theorem evictAllF_of_le :
    ∀ (n : Nat) (st : LIRSStack), evictMeasure st ≤ n →
      evictAllF n st = evictAllF (evictMeasure st) st := by
  intro n
  induction n using Nat.strong_induction_on with
  | _ n IH =>
    intro st hle
    cases n with
    | zero =>
      have : evictMeasure st = 0 := Nat.le_zero.1 hle
      rw [this]
    | succ m =>
      cases hstep : st.evictStep with
      | none => rw [evictAllF_none hstep, evictAllF_none hstep]
      | some r =>
        obtain ⟨k, st2⟩ := r
        have hlt := evictStep_lt hstep
        have hpos : 0 < evictMeasure st := Nat.pos_of_ne_zero (by omega)
        obtain ⟨m2, hm2⟩ : ∃ m2, evictMeasure st = m2 + 1 :=
          ⟨evictMeasure st - 1, by omega⟩
        have h1 : evictAllF (m + 1) st = k :: evictAllF m st2 := by
          simp [evictAllF, hstep]
        have h2 : evictAllF (m2 + 1) st = k :: evictAllF m2 st2 := by
          simp [evictAllF, hstep]
        rw [h1, hm2, h2]
        have e1 : evictAllF m st2 = evictAllF (evictMeasure st2) st2 :=
          IH m (by omega) st2 (by omega)
        have e2 : evictAllF m2 st2 = evictAllF (evictMeasure st2) st2 :=
          IH m2 (by omega) st2 (by omega)
        rw [e1, e2]

theorem evictAll_step {st : LIRSStack} {k : Nat} {st2 : LIRSStack}
    (h : st.evictStep = some (k, st2)) :
    st.evictAll = k :: st2.evictAll := by
  have hlt := evictStep_lt h
  obtain ⟨m, hm⟩ : ∃ m, evictMeasure st = m + 1 :=
    ⟨evictMeasure st - 1, by omega⟩
  unfold LIRSStack.evictAll
  rw [hm]
  simp only [evictAllF, h]
  rw [evictAllF_of_le m st2 (by omega)]

theorem evictAll_evictRun (n : Nat) (st : LIRSStack) :
    st.evictAll = (evictRun n st).1 ++ (evictRun n st).2.evictAll := by
  induction n generalizing st with
  | zero => rfl
  | succ m IH =>
    cases hstep : st.evictStep with
    | none => simp [evictRun, hstep]
    | some r =>
      obtain ⟨k, st2⟩ := r
      simp only [evictRun, hstep]
      rw [evictAll_step hstep, IH st2]
      rfl

theorem odPop_cons_ne {t : List (Nat × α)} {p : Nat × α} {k : Nat}
    (h : p.1 ≠ k) : (odPop (p :: t) k).2 = p :: (odPop t k).2 := by
  obtain ⟨k0, v0⟩ := p
  simp only at h
  simp [odPop, h]

theorem evictStep_inv {st : LIRSStack} {k : Nat} {st2 : LIRSStack}
    (h : st.evictStep = some (k, st2)) (h0 : Inv0 st) (hh : headLIR st.s) :
    Inv0 st2 ∧ headLIR st2.s := by
  obtain ⟨lc, hc, s, q⟩ := st
  obtain ⟨hnds, hndq, hqh⟩ := h0
  simp only [qHir] at hqh
  simp only at hnds hndq hh hqh
  cases q with
  | cons k0 qrest =>
    simp only [LIRSStack.evictStep, Option.some.injEq, Prod.mk.injEq] at h
    obtain ⟨hk, hst2⟩ := h
    rw [← hst2]
    refine ⟨⟨?_, ?_, ?_⟩, ?_⟩
    · exact nodupKeys_odPop _ hnds
    · exact hndq.of_cons
    · intro p hp hpq
      exact hqh p (mem_of_mem_odPop hp) (List.mem_cons_of_mem _ hpq)
    · cases hs : s with
      | nil => simp [hs, odPop, headLIR]
      | cons p t =>
        have hplir : p.2 = Status.lir := by rw [hs] at hh; exact hh
        have hpk : p.1 ≠ k0 := by
          intro he
          have h2 : p.2 = Status.hir := by
            refine hqh p ?_ ?_
            · rw [hs]; exact List.mem_cons_self _ _
            · rw [he]; exact List.mem_cons_self _ _
          rw [hplir] at h2
          exact Status.noConfusion h2
        rw [odPop_cons_ne hpk]
        exact hplir
  | nil =>
    simp only [LIRSStack.evictStep] at h
    cases hs : evictS s with
    | none => rw [hs] at h; simp at h
    | some r =>
      obtain ⟨k1, s2⟩ := r
      rw [hs] at h
      simp only [Option.some.injEq, Prod.mk.injEq] at h
      obtain ⟨hk, hst2⟩ := h
      rw [← hst2]
      refine ⟨⟨?_, ?_, ?_⟩, ?_⟩
      · exact nodupKeys_sublist (evictS_sublist hs) hnds
      · exact List.nodup_nil
      · intro p hp hpq
        simp at hpq
      · exact evictS_headLIR hs

/-!
Core case analyses of `hit` and `remove`: invariant preservation and
tracking of where queue members and LIR members may come from.
-/

theorem qHir_key_not_mem {s : List (Nat × Status)} {q : List Nat} {key : Nat}
    {v : Status} (hqh : ∀ p ∈ s, p.1 ∈ q → p.2 = Status.hir)
    (hmem : (key, v) ∈ s) (hv : v = Status.lir) : key ∉ q := by
  intro hk
  have := hqh (key, v) hmem hk
  rw [hv] at this
  exact Status.noConfusion this

theorem hit_spec {st : LIRSStack} {key : Nat} {ev : Option Nat}
    {st2 : LIRSStack} (h : st.hit key = (ev, st2)) (d : List Nat)
    (h1 : Inv1 st) (hl : 1 ≤ st.lirs)
    (hq : ∀ k ∈ st.q, k ∈ d)
    (hlir : ∀ a : Nat, (a, Status.lir) ∈ st.s → a ∈ d) :
    Inv1 st2 ∧
    (∀ e, ev = some e → e ≠ key) ∧
    (∀ k ∈ st2.q, k = key ∨ (k ∈ d ∧ ∀ e, ev = some e → k ≠ e)) ∧
    (∀ a : Nat, (a, Status.lir) ∈ st2.s →
      a = key ∨ (a ∈ d ∧ ∀ e, ev = some e → a ≠ e)) := by
  obtain ⟨lc, hc, s, q⟩ := st
  obtain ⟨⟨hnds, hndq, hqh⟩, hh, hlirq, hcap⟩ := h1
  simp only [qHir] at hqh
  simp only [hasLirIfQ] at hlirq
  simp only at hnds hndq hh hq hlir hl hcap hlirq
  rcases hpop : odPop s key with ⟨stat, s1⟩
  have hs1 : s1.Sublist s := by
    have := odPop_sublist s key
    rw [hpop] at this
    exact this
  have hnds1 : nodupKeys s1 := nodupKeys_sublist hs1 hnds
  cases stat with
  | some st0 =>
    cases st0 with
    | lir =>
      -- branch A: key is an LIR block
      have hkeymem : (key, Status.lir) ∈ s := by
        have := odPop_some_mem (l := s) (k := key) (v := Status.lir)
        rw [hpop] at this
        exact this rfl
      have hknq : key ∉ q := qHir_key_not_mem hqh hkeymem rfl
      have hknk : key ∉ keysOf s1 := by
        have := not_mem_keys_odPop (l := s) (k := key) hnds
        rw [hpop] at this
        exact this
      simp only [LIRSStack.hit, hpop] at h
      injection h with he h2
      subst he
      subst h2
      refine ⟨⟨⟨?_, hndq, ?_⟩, ?_, ?_, ?_⟩, ?_, ?_, ?_⟩
      · exact nodupKeys_sublist (pruneList_sublist _) (nodupKeys_odSet _ _ hnds1)
      · -- qHir
        intro p hp hpq
        simp only at hpq
        rcases mem_of_mem_odSet
          ((pruneList_sublist _).mem hp) with hmem | rfl
        · exact hqh p (hs1.mem hmem) hpq
        · exact absurd hpq hknq
      · exact headLIR_pruneList _
      · -- hasLirIfQ
        exact Or.inr ⟨(key, Status.lir),
          mem_pruneList_lir (mem_odSet_self _ _ _), rfl⟩
      · exact hcap
      · intro e he
        exact Option.noConfusion he
      · intro k hk
        exact Or.inr ⟨hq k hk, fun e he => Option.noConfusion he⟩
      · intro a ha
        rcases mem_of_mem_odSet ((pruneList_sublist _).mem ha) with hmem | hp
        · exact Or.inr ⟨hlir a (hs1.mem hmem),
            fun e he => Option.noConfusion he⟩
        · exact Or.inl (congrArg Prod.fst hp)
    | hir =>
      -- branch B: key is an HIR block in s
      have hkeymem : (key, Status.hir) ∈ s := by
        have := odPop_some_mem (l := s) (k := key) (v := Status.hir)
        rw [hpop] at this
        exact this rfl
      have hknk : key ∉ keysOf s1 := by
        have := not_mem_keys_odPop (l := s) (k := key) hnds
        rw [hpop] at this
        exact this
      -- s is non-empty with an LIR head distinct from key
      cases hs : s with
      | nil => rw [hs] at hpop; simp [odPop] at hpop
      | cons p0 t0 =>
        subst hs
        have hp0lir : p0.2 = Status.lir := hh
        have hp0key : p0.1 ≠ key := by
          intro he
          obtain ⟨a0, b0⟩ := p0
          simp only at he hp0lir
          rw [he, hp0lir] at hpop
          simp [odPop] at hpop
        have hs1c : s1 = p0 :: (odPop t0 key).2 := by
          have h2 : (odPop (p0 :: t0) key).2 = s1 := congrArg Prod.snd hpop
          rw [odPop_cons_ne hp0key] at h2
          exact h2.symm
        have hsetc : odSet s1 key Status.lir =
            p0 :: ((odPop t0 key).2 ++ [(key, Status.lir)]) := by
          rw [hs1c] at hknk ⊢
          rw [odSet_of_not_mem _ hknk]
          simp
        -- facts about the new stack contents
        have hndt0 : nodupKeys (p0 :: t0) := hnds
        have hp0t0 : p0.1 ∉ keysOf t0 := by
          simp only [nodupKeys, keysOf_cons, List.nodup_cons] at hndt0
          exact hndt0.1
        have hndsrest : nodupKeys ((odPop t0 key).2 ++ [(key, Status.lir)]) := by
          have hx : nodupKeys (p0 :: ((odPop t0 key).2 ++ [(key, Status.lir)])) := by
            rw [← hsetc]; exact nodupKeys_odSet _ _ hnds1
          exact nodupKeys_sublist (List.sublist_cons_self _ _) hx
        have hmemS2 : ∀ pp ∈ pruneList ((odPop t0 key).2 ++ [(key, Status.lir)]),
            pp ∈ t0 ∨ pp = (key, Status.lir) := by
          intro pp hpp
          rcases List.mem_append.1 ((pruneList_sublist _).mem hpp) with hx | hx
          · exact Or.inl (mem_of_mem_odPop hx)
          · exact Or.inr (List.mem_singleton.1 hx)
        have hp0memS : (p0.1, Status.lir) ∈ p0 :: t0 := by
          rw [← hp0lir, Prod.mk.eta]
          exact List.mem_cons_self _ _
        have hnoP0 : ∀ v : Status,
            (p0.1, v) ∉ pruneList ((odPop t0 key).2 ++ [(key, Status.lir)]) := by
          intro v hv
          rcases hmemS2 _ hv with hx | hx
          · exact hp0t0 (mem_keysOf.2 ⟨v, hx⟩)
          · exact hp0key (congrArg Prod.fst hx)
        have hlirS2 : ∀ a : Nat,
            (a, Status.lir) ∈ pruneList ((odPop t0 key).2 ++ [(key, Status.lir)]) →
            a = key ∨ (a, Status.lir) ∈ p0 :: t0 := by
          intro a ha
          rcases hmemS2 _ ha with hx | hx
          · exact Or.inr (List.mem_cons_of_mem _ hx)
          · exact Or.inl (congrArg Prod.fst hx)
        have hqhS2 : ∀ k2 ∈ q, ∀ v : Status,
            (k2, v) ∈ pruneList ((odPop t0 key).2 ++ [(key, Status.lir)]) →
            k2 ≠ key → v = Status.hir := by
          intro k2 hk2 v hv hne
          rcases hmemS2 _ hv with hx | hx
          · exact hqh (k2, v) (List.mem_cons_of_mem _ hx) hk2
          · exact absurd (congrArg Prod.fst hx) hne
        simp only [LIRSStack.hit, hpop, hsetc] at h
        by_cases hcond : (decide (key ∈ q) = false ∧
            hc ≤ (List.erase q key).length ∧ 0 < hc)
        · -- an eviction from the front of q takes place
          have hknq : key ∉ q := of_decide_eq_false hcond.1
          have herq : List.erase q key = q := List.erase_of_not_mem hknq
          rw [if_pos hcond, if_pos hcond, herq] at h
          rw [herq] at hcond
          cases hq0 : q with
          | nil =>
            rw [hq0] at hcond
            simp at hcond
            omega
          | cons e qt =>
            subst hq0
            simp only [List.head?, List.tail] at h
            injection h with he h2
            subst he
            subst h2
            have heq : e ∈ e :: qt := List.mem_cons_self _ _
            have hent : qt.Nodup := hndq.of_cons
            have henqt : e ∉ qt := (List.nodup_cons.1 hndq).1
            have hekey : e ≠ key := fun hx => hknq (hx ▸ heq)
            have hlirne : ∀ a : Nat, (a, Status.lir) ∈ p0 :: t0 → a ≠ e := by
              intro a ha hx
              have := hqh (a, Status.lir) ha (hx ▸ heq)
              exact Status.noConfusion this
            refine ⟨⟨⟨?_, ?_, ?_⟩, ?_, ?_, ?_⟩, ?_, ?_, ?_⟩
            · exact nodupKeys_sublist (pruneList_sublist _) hndsrest
            · exact nodup_qPush _ hent
            · -- qHir
              intro p hp hpq
              simp only at hpq ⊢
              rcases mem_qPush.1 hpq with hx | hx
              · -- p.1 is an old queue member
                obtain ⟨a, v⟩ := p
                refine hqhS2 a (List.mem_cons_of_mem _ hx) v hp ?_
                intro hx2
                subst hx2
                exact hknq (List.mem_cons_of_mem _ hx)
              · -- p.1 is the demoted key
                obtain ⟨a, v⟩ := p
                have hax : a = p0.1 := hx
                exact absurd hp (hax ▸ hnoP0 v)
            · exact headLIR_pruneList _
            · exact Or.inr ⟨(key, Status.lir),
                mem_pruneList_lir (by simp), rfl⟩
            · -- queue capacity
              intro hhc
              have hlen : (e :: qt).length ≤ hc := hcap hhc
              have := length_qPush qt p0.1
              simp only [List.length_cons] at hlen
              simp only
              omega
            · intro e2 he2
              have : e2 = e := by simpa using he2.symm
              subst this
              exact hekey
            · -- new queue membership
              intro k2 hk2
              rcases mem_qPush.1 hk2 with hx | hx
              · refine Or.inr ⟨hq k2 (List.mem_cons_of_mem _ hx), ?_⟩
                intro e2 he2
                have : e2 = e := by simpa using he2.symm
                subst this
                intro hx2
                exact henqt (hx2 ▸ hx)
              · subst hx
                refine Or.inr ⟨hlir _ hp0memS, ?_⟩
                intro e2 he2
                have : e2 = e := by simpa using he2.symm
                subst this
                exact hlirne _ hp0memS
            · -- new LIR members
              intro a ha
              rcases hlirS2 a ha with hx | hx
              · exact Or.inl hx
              · refine Or.inr ⟨hlir a hx, ?_⟩
                intro e2 he2
                have : e2 = e := by simpa using he2.symm
                subst this
                exact hlirne _ hx
        · -- no eviction
          rw [if_neg hcond, if_neg hcond] at h
          injection h with he h2
          subst he
          subst h2
          have hkq2 : key ∉ List.erase q key := by
            by_cases hkq : key ∈ q
            · exact hndq.not_mem_erase
            · rw [List.erase_of_not_mem hkq]; exact hkq
          refine ⟨⟨⟨?_, ?_, ?_⟩, ?_, ?_, ?_⟩, ?_, ?_, ?_⟩
          · exact nodupKeys_sublist (pruneList_sublist _) hndsrest
          · exact nodup_qPush _ (hndq.erase key)
          · -- qHir
            intro p hp hpq
            simp only at hpq ⊢
            rcases mem_qPush.1 hpq with hx | hx
            · obtain ⟨a, v⟩ := p
              refine hqhS2 a ((List.erase_sublist key q).mem hx) v hp ?_
              intro hx2
              subst hx2
              exact hkq2 hx
            · obtain ⟨a, v⟩ := p
              have hax : a = p0.1 := hx
              exact absurd hp (hax ▸ hnoP0 v)
          · exact headLIR_pruneList _
          · exact Or.inr ⟨(key, Status.lir),
              mem_pruneList_lir (by simp), rfl⟩
          · -- queue capacity
            intro hhc
            simp only
            have := length_qPush (List.erase q key) p0.1
            by_cases hkq : key ∈ q
            · have := List.length_erase_of_mem hkq
              have hql : q.length ≤ hc := hcap hhc
              have hqpos : 0 < q.length := List.length_pos_of_mem hkq
              omega
            · rw [List.erase_of_not_mem hkq] at this ⊢
              have : ¬ hc ≤ q.length := by
                intro hx
                exact hcond ⟨decide_eq_false hkq, by
                  rw [List.erase_of_not_mem hkq]; exact hx, hhc⟩
              omega
          · intro e2 he2
            exact Option.noConfusion he2
          · intro k2 hk2
            rcases mem_qPush.1 hk2 with hx | hx
            · exact Or.inr ⟨hq k2 ((List.erase_sublist key q).mem hx),
                fun e2 he2 => Option.noConfusion he2⟩
            · subst hx
              exact Or.inr ⟨hlir _ hp0memS,
                fun e2 he2 => Option.noConfusion he2⟩
          · intro a ha
            rcases hlirS2 a ha with hx | hx
            · exact Or.inl hx
            · exact Or.inr ⟨hlir a hx,
                fun e2 he2 => Option.noConfusion he2⟩
  | none =>
    have hknkS : key ∉ keysOf s := by
      have hx := odPop_fst_eq_none_iff s key
      rw [hpop] at hx
      exact hx.mp rfl
    simp only [LIRSStack.hit, hpop] at h
    by_cases hkq : key ∈ q
    · -- branch C: resident HIR block not tracked in s
      rw [if_pos hkq] at h
      injection h with he h2
      subst he
      subst h2
      have hset : odSet s key Status.hir = s ++ [(key, Status.hir)] :=
        odSet_of_not_mem _ hknkS
      have hqne : q ≠ [] := List.ne_nil_of_mem hkq
      obtain ⟨w, hwmem, hwlir⟩ : ∃ p ∈ s, p.2 = Status.lir := by
        rcases hlirq with hx | hx
        · exact absurd hx hqne
        · exact hx
      have hsne : s ≠ [] := List.ne_nil_of_mem hwmem
      refine ⟨⟨⟨?_, ?_, ?_⟩, ?_, ?_, ?_⟩, ?_, ?_, ?_⟩
      · exact nodupKeys_odSet _ _ hnds
      · exact nodup_qPush _ (hndq.erase key)
      · -- qHir
        intro p hp hpq
        simp only at hpq ⊢
        rcases mem_of_mem_odSet hp with hx | hx
        · rcases mem_qPush.1 hpq with hy | hy
          · exact hqh p hx ((List.erase_sublist key q).mem hy)
          · exact absurd (mem_keysOf.2 ⟨p.2, hy ▸ (Prod.mk.eta ▸ hx)⟩) hknkS
        · rw [hx]
      · rw [hset]
        exact headLIR_append hsne hh
      · refine Or.inr ⟨w, ?_, hwlir⟩
        rw [hset]
        exact List.mem_append_left _ hwmem
      · -- queue capacity
        intro hhc
        simp only
        have h1 := length_qPush (List.erase q key) key
        have h2 := List.length_erase_of_mem hkq
        have h3 := hcap hhc
        have h4 := List.length_pos_of_mem hkq
        omega
      · intro e2 he2
        exact Option.noConfusion he2
      · intro k2 hk2
        rcases mem_qPush.1 hk2 with hx | hx
        · exact Or.inr ⟨hq k2 ((List.erase_sublist key q).mem hx),
            fun e2 he2 => Option.noConfusion he2⟩
        · exact Or.inl hx
      · intro a ha
        rw [hset] at ha
        rcases List.mem_append.1 ha with hx | hx
        · exact Or.inr ⟨hlir a hx, fun e2 he2 => Option.noConfusion he2⟩
        · have := List.mem_singleton.1 hx
          exact absurd (congrArg Prod.snd this) (by simp)
    · rw [if_neg hkq] at h
      by_cases hlen : s.length < lc
      · -- branch D: bootstrap below the LIR population target
        rw [if_pos hlen] at h
        injection h with he h2
        subst he
        subst h2
        have hset : odSet s key Status.lir = s ++ [(key, Status.lir)] :=
          odSet_of_not_mem _ hknkS
        refine ⟨⟨⟨?_, hndq, ?_⟩, ?_, ?_, ?_⟩, ?_, ?_, ?_⟩
        · exact nodupKeys_odSet _ _ hnds
        · -- qHir
          intro p hp hpq
          simp only at hpq ⊢
          rcases mem_of_mem_odSet hp with hx | hx
          · exact hqh p hx hpq
          · have hx2 : p.1 = key := congrArg Prod.fst hx
            rw [hx2] at hpq
            exact absurd hpq hkq
        · rw [hset]
          cases hs : s with
          | nil => simp [headLIR]
          | cons p0 t0 =>
            subst hs
            exact headLIR_append (by simp) hh
        · rcases hlirq with hx | hx
          · exact Or.inl hx
          · obtain ⟨w, hwmem, hwlir⟩ := hx
            refine Or.inr ⟨w, ?_, hwlir⟩
            rw [hset]
            exact List.mem_append_left _ hwmem
        · exact hcap
        · intro e2 he2
          exact Option.noConfusion he2
        · intro k2 hk2
          exact Or.inr ⟨hq k2 hk2, fun e2 he2 => Option.noConfusion he2⟩
        · intro a ha
          rw [hset] at ha
          rcases List.mem_append.1 ha with hx | hx
          · exact Or.inr ⟨hlir a hx, fun e2 he2 => Option.noConfusion he2⟩
          · exact Or.inl (congrArg Prod.fst (List.mem_singleton.1 hx))
      · -- branch E: cold key at full LIR population
        rw [if_neg hlen] at h
        have hslen : lc ≤ s.length := Nat.le_of_not_lt hlen
        have hspos : 0 < s.length := by omega
        obtain ⟨p0, t0, hs⟩ : ∃ p0 t0, s = p0 :: t0 := by
          cases s with
          | nil => simp at hspos
          | cons a b => exact ⟨a, b, rfl⟩
        subst hs
        have hp0lir : p0.2 = Status.lir := hh
        have hp0memS : (p0.1, Status.lir) ∈ p0 :: t0 := by
          rw [← hp0lir, Prod.mk.eta]
          exact List.mem_cons_self _ _
        have hset : odSet (p0 :: t0) key Status.hir =
            (p0 :: t0) ++ [(key, Status.hir)] := odSet_of_not_mem _ hknkS
        by_cases hcond : (hc ≤ q.length ∧ 0 < hc)
        · -- an eviction from the front of q takes place
          rw [if_pos hcond, if_pos hcond] at h
          cases hq0 : q with
          | nil =>
            rw [hq0] at hcond
            simp at hcond
            omega
          | cons e qt =>
            subst hq0
            simp only [List.head?, List.tail] at h
            injection h with he h2
            subst he
            subst h2
            have heq : e ∈ e :: qt := List.mem_cons_self _ _
            have hent : qt.Nodup := hndq.of_cons
            have henqt : e ∉ qt := (List.nodup_cons.1 hndq).1
            have hekey : e ≠ key := fun hx => hkq (hx ▸ heq)
            have hlirne : ∀ a : Nat, (a, Status.lir) ∈ p0 :: t0 → a ≠ e := by
              intro a ha hx
              have := hqh (a, Status.lir) ha (hx ▸ heq)
              exact Status.noConfusion this
            refine ⟨⟨⟨?_, ?_, ?_⟩, ?_, ?_, ?_⟩, ?_, ?_, ?_⟩
            · exact nodupKeys_odSet _ _ hnds
            · exact nodup_qPush _ hent
            · -- qHir
              intro p hp hpq
              simp only at hpq ⊢
              rcases mem_of_mem_odSet hp with hx | hx
              · rcases mem_qPush.1 hpq with hy | hy
                · exact hqh p hx (List.mem_cons_of_mem _ hy)
                · exact absurd (mem_keysOf.2 ⟨p.2, hy ▸ (Prod.mk.eta ▸ hx)⟩)
                    hknkS
              · rw [hx]
            · rw [hset]
              exact headLIR_append (by simp) hh
            · refine Or.inr ⟨p0, ?_, hp0lir⟩
              rw [hset]
              exact List.mem_append_left _ (List.mem_cons_self _ _)
            · -- queue capacity
              intro hhc
              have hlen2 : (e :: qt).length ≤ hc := hcap hhc
              have := length_qPush qt key
              simp only [List.length_cons] at hlen2
              simp only
              omega
            · intro e2 he2
              have : e2 = e := by simpa using he2.symm
              subst this
              exact hekey
            · intro k2 hk2
              rcases mem_qPush.1 hk2 with hx | hx
              · refine Or.inr ⟨hq k2 (List.mem_cons_of_mem _ hx), ?_⟩
                intro e2 he2
                have : e2 = e := by simpa using he2.symm
                subst this
                intro hx2
                exact henqt (hx2 ▸ hx)
              · exact Or.inl hx
            · intro a ha
              rw [hset] at ha
              rcases List.mem_append.1 ha with hx | hx
              · refine Or.inr ⟨hlir a hx, ?_⟩
                intro e2 he2
                have : e2 = e := by simpa using he2.symm
                subst this
                exact hlirne _ hx
              · exact absurd (congrArg Prod.snd (List.mem_singleton.1 hx))
                  (by simp)
        · -- no eviction
          rw [if_neg hcond, if_neg hcond] at h
          injection h with he h2
          subst he
          subst h2
          refine ⟨⟨⟨?_, ?_, ?_⟩, ?_, ?_, ?_⟩, ?_, ?_, ?_⟩
          · exact nodupKeys_odSet _ _ hnds
          · exact nodup_qPush _ hndq
          · -- qHir
            intro p hp hpq
            simp only at hpq ⊢
            rcases mem_of_mem_odSet hp with hx | hx
            · rcases mem_qPush.1 hpq with hy | hy
              · exact hqh p hx hy
              · exact absurd (mem_keysOf.2 ⟨p.2, hy ▸ (Prod.mk.eta ▸ hx)⟩)
                  hknkS
            · rw [hx]
          · rw [hset]
            exact headLIR_append (by simp) hh
          · refine Or.inr ⟨p0, ?_, hp0lir⟩
            rw [hset]
            exact List.mem_append_left _ (List.mem_cons_self _ _)
          · -- queue capacity
            intro hhc
            have h1 := length_qPush q key
            have h2 : ¬ hc ≤ q.length := fun hx => hcond ⟨hx, hhc⟩
            simp only
            omega
          · intro e2 he2
            exact Option.noConfusion he2
          · intro k2 hk2
            rcases mem_qPush.1 hk2 with hx | hx
            · exact Or.inr ⟨hq k2 hx, fun e2 he2 => Option.noConfusion he2⟩
            · exact Or.inl hx
          · intro a ha
            rw [hset] at ha
            rcases List.mem_append.1 ha with hx | hx
            · exact Or.inr ⟨hlir a hx, fun e2 he2 => Option.noConfusion he2⟩
            · exact absurd (congrArg Prod.snd (List.mem_singleton.1 hx))
                (by simp)

theorem nodupKeys_eq_of_mem {l : List (Nat × α)} (h : nodupKeys l)
    {k : Nat} {v1 v2 : α} (h1 : (k, v1) ∈ l) (h2 : (k, v2) ∈ l) :
    v1 = v2 := by
  induction l with
  | nil => simp at h1
  | cons p rest ih =>
    obtain ⟨k0, v0⟩ := p
    simp only [nodupKeys, keysOf_cons, List.nodup_cons] at h
    rcases List.mem_cons.1 h1 with hx1 | hx1 <;>
      rcases List.mem_cons.1 h2 with hx2 | hx2
    · rw [(Prod.mk.injEq _ _ _ _ |>.mp hx1).2,
        (Prod.mk.injEq _ _ _ _ |>.mp hx2).2]
    · obtain ⟨he1, _⟩ := Prod.mk.injEq _ _ _ _ |>.mp hx1
      exact absurd (he1 ▸ mem_keysOf.2 ⟨v2, hx2⟩) h.1
    · obtain ⟨he2, _⟩ := Prod.mk.injEq _ _ _ _ |>.mp hx2
      exact absurd (he2 ▸ mem_keysOf.2 ⟨v1, hx1⟩) h.1
    · exact ih h.2 hx1 hx2

theorem headLIR_filter (l : List (Nat × Status)) :
    headLIR (l.filter (fun e => e.2 == Status.lir)) := by
  cases hf : l.filter (fun e => e.2 == Status.lir) with
  | nil => trivial
  | cons x xs =>
    have hx : x ∈ l.filter (fun e => e.2 == Status.lir) := by
      rw [hf]; exact List.mem_cons_self _ _
    have h2 := (List.mem_filter.mp hx).2
    show x.2 = Status.lir
    cases hx2 : x.2
    · rfl
    · exfalso
      simp only [hx2] at h2
      exact absurd h2 (by decide)

theorem remove_spec {st : LIRSStack} (key : Nat) (d : List Nat)
    (h1 : Inv1 st)
    (hq : ∀ k ∈ st.q, k ∈ d)
    (hlir : ∀ a : Nat, (a, Status.lir) ∈ st.s → a ∈ d) :
    Inv1 (st.remove key) ∧
    (∀ k ∈ (st.remove key).q, k ∈ d ∧ k ≠ key) ∧
    (∀ a : Nat, (a, Status.lir) ∈ (st.remove key).s → a ∈ d ∧ a ≠ key) := by
  obtain ⟨lc, hc, s, q⟩ := st
  obtain ⟨⟨hnds, hndq, hqh⟩, hh, hlirq, hcap⟩ := h1
  simp only [qHir] at hqh
  simp only [hasLirIfQ] at hlirq
  simp only at hnds hndq hh hq hlir hcap hlirq
  rcases hpop : odPop s key with ⟨stat, s1⟩
  have hs1 : s1.Sublist s := by
    have := odPop_sublist s key
    rw [hpop] at this
    exact this
  have hnds1 : nodupKeys s1 := nodupKeys_sublist hs1 hnds
  cases stat with
  | some st0 =>
    cases st0 with
    | lir =>
      have hkeymem : (key, Status.lir) ∈ s := by
        have := odPop_some_mem (l := s) (k := key) (v := Status.lir)
        rw [hpop] at this
        exact this rfl
      have hknq : key ∉ q := qHir_key_not_mem hqh hkeymem rfl
      have hknk : key ∉ keysOf s1 := by
        have := not_mem_keys_odPop (l := s) (k := key) hnds
        rw [hpop] at this
        exact this
      cases hq0 : q with
      | nil =>
        subst hq0
        simp only [LIRSStack.remove, hpop]
        refine ⟨⟨⟨?_, ?_, ?_⟩, ?_, ?_, ?_⟩, ?_, ?_⟩
        · exact nodupKeys_sublist (List.filter_sublist _) hnds1
        · exact List.nodup_nil
        · intro p hp hpq
          simp at hpq
        · exact headLIR_filter s1
        · exact Or.inl rfl
        · intro hhc
          simp
        · intro k hk
          simp at hk
        · intro a ha
          have hmem : (a, Status.lir) ∈ s1 := (List.filter_sublist _).mem ha
          refine ⟨hlir a (hs1.mem hmem), ?_⟩
          intro hx
          exact hknk (hx ▸ mem_keysOf.2 ⟨Status.lir, hmem⟩)
      | cons newLirs qrest =>
        subst hq0
        simp only [LIRSStack.remove, hpop]
        have hnlq : newLirs ∈ newLirs :: qrest := List.mem_cons_self _ _
        have hnlk : newLirs ≠ key := fun hx => hknq (hx ▸ hnlq)
        have hnlrest : newLirs ∉ qrest := (List.nodup_cons.1 hndq).1
        refine ⟨⟨⟨?_, ?_, ?_⟩, ?_, ?_, ?_⟩, ?_, ?_⟩
        · exact nodupKeys_sublist (pruneList_sublist _)
            (nodupKeys_odSet _ _ hnds1)
        · exact (hndq.of_cons).erase key
        · -- qHir
          intro p hp hpq
          simp only at hpq ⊢
          rcases mem_of_mem_odSet ((pruneList_sublist _).mem hp) with hx | hx
          · exact hqh p (hs1.mem hx)
              (List.mem_cons_of_mem _ ((List.erase_sublist key qrest).mem hpq))
          · have : p.1 = newLirs := congrArg Prod.fst hx
            rw [this] at hpq
            exact absurd ((List.erase_sublist key qrest).mem hpq) hnlrest
        · exact headLIR_pruneList _
        · exact Or.inr ⟨(newLirs, Status.lir),
            mem_pruneList_lir (mem_odSet_self _ _ _), rfl⟩
        · intro hhc
          have h1 := (List.erase_sublist key qrest).length_le
          have h2 := hcap hhc
          simp only [List.length_cons] at h2
          simp only
          omega
        · intro k hk
          have hkq : k ∈ qrest := (List.erase_sublist key qrest).mem hk
          refine ⟨hq k (List.mem_cons_of_mem _ hkq), ?_⟩
          intro hx
          subst hx
          exact (hndq.of_cons).not_mem_erase hk
        · intro a ha
          rcases mem_of_mem_odSet ((pruneList_sublist _).mem ha) with hx | hx
          · refine ⟨hlir a (hs1.mem hx), ?_⟩
            intro he
            exact hknk (he ▸ mem_keysOf.2 ⟨Status.lir, hx⟩)
          · have : a = newLirs := congrArg Prod.fst hx
            subst this
            exact ⟨hq a hnlq, hnlk⟩
    | hir =>
      have hkeymem : (key, Status.hir) ∈ s := by
        have := odPop_some_mem (l := s) (k := key) (v := Status.hir)
        rw [hpop] at this
        exact this rfl
      have hknk : key ∉ keysOf s1 := by
        have := not_mem_keys_odPop (l := s) (k := key) hnds
        rw [hpop] at this
        exact this
      have hh1 : headLIR s1 := by
        cases hs : s with
        | nil => rw [hs] at hpop; simp [odPop] at hpop
        | cons p0 t0 =>
          subst hs
          have hp0lir : p0.2 = Status.lir := hh
          have hp0key : p0.1 ≠ key := by
            intro he
            obtain ⟨a0, b0⟩ := p0
            simp only at he hp0lir
            rw [he, hp0lir] at hpop
            simp [odPop] at hpop
          have hs1c : s1 = p0 :: (odPop t0 key).2 := by
            have h2 : (odPop (p0 :: t0) key).2 = s1 := congrArg Prod.snd hpop
            rw [odPop_cons_ne hp0key] at h2
            exact h2.symm
          rw [hs1c]
          exact hp0lir
      simp only [LIRSStack.remove, hpop]
      refine ⟨⟨⟨hnds1, hndq.erase key, ?_⟩, hh1, ?_, ?_⟩, ?_, ?_⟩
      · intro p hp hpq
        exact hqh p (hs1.mem hp) ((List.erase_sublist key q).mem hpq)
      · -- hasLirIfQ
        by_cases hqe : q.erase key = []
        · exact Or.inl hqe
        · rcases hlirq with hx | hx
          · exact Or.inl (by rw [hx]; rfl)
          · obtain ⟨w, hwmem, hwlir⟩ := hx
            refine Or.inr ⟨w, ?_, hwlir⟩
            have hwk : w.1 ≠ key := by
              intro he
              have : Status.lir = Status.hir := by
                refine nodupKeys_eq_of_mem hnds ?_ hkeymem
                rw [← he, ← hwlir, Prod.mk.eta]
                exact hwmem
              exact Status.noConfusion this
            have := mem_odPop_of_ne (k := key) hwmem hwk
            rw [hpop] at this
            exact this
      · intro hhc
        have h1 := (List.erase_sublist key q).length_le
        have h2 := hcap hhc
        show (List.erase q key).length ≤ hc
        omega
      · intro k hk
        refine ⟨hq k ((List.erase_sublist key q).mem hk), ?_⟩
        intro hx
        subst hx
        exact hndq.not_mem_erase hk
      · intro a ha
        refine ⟨hlir a (hs1.mem ha), ?_⟩
        intro he
        exact hknk (he ▸ mem_keysOf.2 ⟨Status.lir, ha⟩)
  | none =>
    have hknkS : key ∉ keysOf s := by
      have hx := odPop_fst_eq_none_iff s key
      rw [hpop] at hx
      exact hx.mp rfl
    have hs1e : s1 = s := by
      have := odPop_none_eq hknkS
      rw [hpop] at this
      exact this
    subst hs1e
    simp only [LIRSStack.remove, hpop]
    refine ⟨⟨⟨hnds1, hndq.erase key, ?_⟩, hh, ?_, ?_⟩, ?_, ?_⟩
    · intro p hp hpq
      exact hqh p hp ((List.erase_sublist key q).mem hpq)
    · by_cases hqe : q.erase key = []
      · exact Or.inl hqe
      · rcases hlirq with hx | hx
        · exact Or.inl (by rw [hx]; rfl)
        · exact Or.inr hx
    · intro hhc
      have h1 := (List.erase_sublist key q).length_le
      have h2 := hcap hhc
      show (List.erase q key).length ≤ hc
      omega
    · intro k hk
      refine ⟨hq k ((List.erase_sublist key q).mem hk), ?_⟩
      intro hx
      subst hx
      exact hndq.not_mem_erase hk
    · intro a ha
      refine ⟨hlir a ha, ?_⟩
      intro he
      exact hknkS (he ▸ mem_keysOf.2 ⟨Status.lir, ha⟩)

/-!
Reachability: every reachable stack state with a positive LIR capacity
satisfies the full invariant (in particular invariant I1).
-/

theorem keys_mem_odSet {l : List (Nat × α)} {a k : Nat} (v : α)
    (h : a ∈ keysOf l ∨ a = k) : a ∈ keysOf (odSet l k v) := by
  rw [keysOf_odSet]
  by_cases hk : k ∈ keysOf l
  · rw [if_pos hk]
    rcases h with h | h
    · exact h
    · exact h ▸ hk
  · rw [if_neg hk]
    rcases h with h | h
    · exact List.mem_append_left _ h
    · exact List.mem_append_right _ (by simp [h])

theorem keys_mem_odPop {l : List (Nat × α)} {a e : Nat}
    (h : a ∈ keysOf l) (hne : a ≠ e) : a ∈ keysOf (odPop l e).2 := by
  obtain ⟨v, hv⟩ := mem_keysOf.1 h
  exact mem_keysOf.2 ⟨v, mem_odPop_of_ne hv hne⟩

theorem odLookup_some_mem_keys {l : List (Nat × α)} {k : Nat} {v : α}
    (h : odLookup l k = some v) : k ∈ keysOf l := by
  by_contra hk
  rw [(odLookup_eq_none_iff l k).2 hk] at h
  exact Option.noConfusion h

/-- `lirs` and `hirs` are never changed by `hit`. -/
theorem hit_fields (st : LIRSStack) (k : Nat) :
    ((st.hit k).2).lirs = st.lirs ∧ ((st.hit k).2).hirs = st.hirs := by
  unfold LIRSStack.hit
  split
  · exact ⟨rfl, rfl⟩
  · split
    · exact ⟨rfl, rfl⟩
    · exact ⟨rfl, rfl⟩
  · split
    · exact ⟨rfl, rfl⟩
    · split
      · exact ⟨rfl, rfl⟩
      · exact ⟨rfl, rfl⟩

/-- `lirs` and `hirs` are never changed by `remove`. -/
theorem remove_fields (st : LIRSStack) (k : Nat) :
    ((st.remove k)).lirs = st.lirs ∧ ((st.remove k)).hirs = st.hirs := by
  simp only [LIRSStack.remove]
  rcases hp : (odPop st.s k).1 with _ | st0
  · simp [hp]
  · cases st0
    · cases hq : st.q
      · simp [hp, hq]
      · simp [hp, hq]
    · simp [hp]

/-- `lirs` and `hirs` are never changed by an `evict()` step. -/
theorem evictStep_fields {st : LIRSStack} {k : Nat} {st2 : LIRSStack}
    (h : st.evictStep = some (k, st2)) :
    st2.lirs = st.lirs ∧ st2.hirs = st.hirs := by
  unfold LIRSStack.evictStep at h
  cases hq : st.q with
  | cons k0 qrest =>
    rw [hq] at h
    simp only [Option.some.injEq, Prod.mk.injEq] at h
    rw [← h.2]
    exact ⟨rfl, rfl⟩
  | nil =>
    rw [hq] at h
    cases hs : evictS st.s with
    | none => rw [hs] at h; exact Option.noConfusion h
    | some r =>
      obtain ⟨k1, s2⟩ := r
      rw [hs] at h
      simp only [Option.some.injEq, Prod.mk.injEq] at h
      rw [← h.2]
      exact ⟨rfl, rfl⟩

theorem prune_inv1 {st : LIRSStack} (h : Inv1 st) : Inv1 st.prune := by
  obtain ⟨⟨hnds, hndq, hqh⟩, hh, hlirq, hcap⟩ := h
  refine ⟨⟨?_, hndq, ?_⟩, ?_, ?_, hcap⟩
  · exact nodupKeys_sublist (pruneList_sublist _) hnds
  · intro p hp hpq
    exact hqh p ((pruneList_sublist _).mem hp) hpq
  · exact headLIR_pruneList _
  · rcases hlirq with hx | hx
    · exact Or.inl hx
    · obtain ⟨w, hwmem, hwlir⟩ := hx
      refine Or.inr ⟨w, ?_, hwlir⟩
      show w ∈ pruneList st.s
      have : (w.1, Status.lir) ∈ st.s := by
        rw [← hwlir, Prod.mk.eta]; exact hwmem
      have h2 := mem_pruneList_lir this
      rw [← hwlir, Prod.mk.eta] at h2
      exact h2

theorem clear_inv1 (st : LIRSStack) : Inv1 st.clear := by
  refine ⟨⟨?_, ?_, ?_⟩, ?_, ?_, ?_⟩ <;>
    simp [LIRSStack.clear, nodupKeys, keysOf, headLIR, qHir, hasLirIfQ]

theorem init_inv1 (l h : Nat) : Inv1 ⟨l, h, [], []⟩ := by
  refine ⟨⟨?_, ?_, ?_⟩, ?_, ?_, ?_⟩ <;>
    simp [nodupKeys, keysOf, headLIR, qHir, hasLirIfQ]

theorem evictStep_inv1 {st : LIRSStack} {k : Nat} {st2 : LIRSStack}
    (h : st.evictStep = some (k, st2)) (h1 : Inv1 st) : Inv1 st2 := by
  obtain ⟨h0, hh, hlirq, hcap⟩ := h1
  obtain ⟨h02, hh2⟩ := evictStep_inv h h0 hh
  obtain ⟨hlcap, hhcap⟩ := evictStep_fields h
  obtain ⟨hnds, hndq, hqh⟩ := h0
  refine ⟨h02, hh2, ?_, ?_⟩
  · -- hasLirIfQ is preserved
    unfold LIRSStack.evictStep at h
    cases hq : st.q with
    | cons k0 qrest =>
      rw [hq] at h
      simp only [Option.some.injEq, Prod.mk.injEq] at h
      rw [← h.2]
      by_cases hqe : qrest = []
      · exact Or.inl hqe
      · rcases hlirq with hx | hx
        · rw [hq] at hx; exact absurd hx (by simp)
        · obtain ⟨w, hwmem, hwlir⟩ := hx
          refine Or.inr ⟨w, ?_, hwlir⟩
          show w ∈ (odPop st.s k0).2
          refine mem_odPop_of_ne hwmem ?_
          intro he
          have : w.2 = Status.hir := by
            refine hqh w hwmem ?_
            rw [he, hq]
            exact List.mem_cons_self _ _
          rw [hwlir] at this
          exact Status.noConfusion this
    | nil =>
      rw [hq] at h
      cases hs : evictS st.s with
      | none => rw [hs] at h; exact Option.noConfusion h
      | some r =>
        obtain ⟨k1, s2⟩ := r
        rw [hs] at h
        simp only [Option.some.injEq, Prod.mk.injEq] at h
        rw [← h.2]
        exact Or.inl rfl
  · -- queue capacity is preserved
    intro hhc
    rw [hhcap] at hhc ⊢
    unfold LIRSStack.evictStep at h
    cases hq : st.q with
    | cons k0 qrest =>
      rw [hq] at h
      simp only [Option.some.injEq, Prod.mk.injEq] at h
      rw [← h.2]
      have := hcap hhc
      rw [hq] at this
      simp only [List.length_cons] at this
      show qrest.length ≤ st.hirs
      omega
    | nil =>
      rw [hq] at h
      cases hs : evictS st.s with
      | none => rw [hs] at h; exact Option.noConfusion h
      | some r =>
        obtain ⟨k1, s2⟩ := r
        rw [hs] at h
        simp only [Option.some.injEq, Prod.mk.injEq] at h
        rw [← h.2]
        show ([] : List Nat).length ≤ st.hirs
        simp

theorem hit_inv1 {st : LIRSStack} (k : Nat) (hl : 1 ≤ st.lirs)
    (h1 : Inv1 st) : Inv1 (st.hit k).2 := by
  rcases hhit : st.hit k with ⟨ev, st2⟩
  have := hit_spec hhit (st.q ++ keysOf st.s) h1 hl
    (fun k2 hk2 => List.mem_append_left _ hk2)
    (fun a ha => List.mem_append_right _ (mem_keysOf.2 ⟨Status.lir, ha⟩))
  exact this.1

theorem remove_inv1 {st : LIRSStack} (k : Nat) (h1 : Inv1 st) :
    Inv1 (st.remove k) := by
  have := remove_spec k (st.q ++ keysOf st.s) h1
    (fun k2 hk2 => List.mem_append_left _ hk2)
    (fun a ha => List.mem_append_right _ (mem_keysOf.2 ⟨Status.lir, ha⟩))
  exact this.1

/-- Every reachable stack state with `lirs_capacity ≥ 1` satisfies the full
invariant. -/
theorem sreach_inv1 {st : LIRSStack} (h : SReach st) (hl : 1 ≤ st.lirs) :
    Inv1 st := by
  induction h with
  | init l h2 => exact init_inv1 l h2
  | hit k hr ih =>
    rename_i st0
    have hf := hit_fields st0 k
    rw [hf.1] at hl
    exact hit_inv1 k hl (ih hl)
  | remove k hr ih =>
    rename_i st0
    have hf := remove_fields st0 k
    rw [hf.1] at hl
    exact remove_inv1 k (ih hl)
  | prune hr ih =>
    rename_i st0
    have : st0.prune.lirs = st0.lirs := rfl
    rw [this] at hl
    exact prune_inv1 (ih hl)
  | clear hr ih =>
    rename_i st0
    exact clear_inv1 st0
  | estep hr hstep ih =>
    rename_i st0 k st2
    have hf := evictStep_fields hstep
    rw [hf.1] at hl
    exact evictStep_inv1 hstep (ih hl)

/-!
Cache-level invariant preservation (invariant I2).
-/

theorem hitE_stack {V : Type} (c : LIRSCache V) (k : Nat) :
    ((c.hitE k).2).stack = (c.stack.hit k).2 := by
  unfold LIRSCache.hitE
  rcases hh : c.stack.hit k with ⟨ev, stk⟩
  cases ev <;> rfl

theorem setE_stack {V : Type} (c : LIRSCache V) (k : Nat) (v : V) :
    ((c.setE k v).2).stack = (c.stack.hit k).2 :=
  hitE_stack c k

theorem get_stack_lirs {V : Type} (c : LIRSCache V) (k : Nat) (d0 : V) :
    ((c.get k d0).2).stack.lirs = c.stack.lirs := by
  unfold LIRSCache.get
  cases hlook : odLookup c.data k with
  | none => rfl
  | some v =>
    show ((c.hitE k).2).stack.lirs = c.stack.lirs
    rw [hitE_stack]
    exact (hit_fields c.stack k).1

theorem pop_state {V : Type} (c : LIRSCache V) (k : Nat) (d0 : V) :
    ((c.pop k d0).2) = ⟨(odPop c.data k).2, c.stack.remove k⟩ := rfl

theorem del_state {V : Type} {c c2 : LIRSCache V} {k : Nat}
    (h : c.del k = some c2) :
    c2 = ⟨(odPop c.data k).2, c.stack.remove k⟩ := by
  unfold LIRSCache.del at h
  rcases hp : odPop c.data k with ⟨o, dd⟩
  rw [hp] at h
  cases o with
  | none => exact Option.noConfusion h
  | some v =>
    simp only [Option.some.injEq] at h
    rw [← h]

theorem cinv_set {V : Type} {c : LIRSCache V} (k : Nat) (v : V)
    (hl : 1 ≤ c.stack.lirs) (h : CInv c) : CInv (c.setE k v).2 := by
  obtain ⟨h1, hqs, hls⟩ := h
  rcases hhit : c.stack.hit k with ⟨ev, stk⟩
  obtain ⟨h1s, hevk, hqtrack, hltrack⟩ :=
    hit_spec hhit (keysOf c.data) h1 hl hqs hls
  unfold LIRSCache.setE LIRSCache.hitE
  rw [hhit]
  cases ev with
  | none =>
    refine ⟨h1s, ?_, ?_⟩
    · intro k2 hk2
      rcases hqtrack k2 hk2 with hx | hx
      · exact keys_mem_odSet v (Or.inr hx)
      · exact keys_mem_odSet v (Or.inl hx.1)
    · intro a ha
      rcases hltrack a ha with hx | hx
      · exact keys_mem_odSet v (Or.inr hx)
      · exact keys_mem_odSet v (Or.inl hx.1)
  | some e =>
    refine ⟨h1s, ?_, ?_⟩
    · intro k2 hk2
      rcases hqtrack k2 hk2 with hx | hx
      · exact keys_mem_odSet v (Or.inr hx)
      · exact keys_mem_odSet v
          (Or.inl (keys_mem_odPop hx.1 (hx.2 e rfl)))
    · intro a ha
      rcases hltrack a ha with hx | hx
      · exact keys_mem_odSet v (Or.inr hx)
      · exact keys_mem_odSet v
          (Or.inl (keys_mem_odPop hx.1 (hx.2 e rfl)))

theorem cinv_get {V : Type} {c : LIRSCache V} (k : Nat) (d0 : V)
    (hl : 1 ≤ c.stack.lirs) (h : CInv c) : CInv (c.get k d0).2 := by
  obtain ⟨h1, hqs, hls⟩ := h
  unfold LIRSCache.get
  cases hlook : odLookup c.data k with
  | none => exact ⟨h1, hqs, hls⟩
  | some v =>
    have hkmem : k ∈ keysOf c.data := odLookup_some_mem_keys hlook
    show CInv (c.hitE k).2
    rcases hhit : c.stack.hit k with ⟨ev, stk⟩
    obtain ⟨h1s, hevk, hqtrack, hltrack⟩ :=
      hit_spec hhit (keysOf c.data) h1 hl hqs hls
    unfold LIRSCache.hitE
    rw [hhit]
    cases ev with
    | none => exact ⟨h1s, fun k2 hk2 => (hqtrack k2 hk2).elim
        (fun hx => hx ▸ hkmem) (fun hx => hx.1),
        fun a ha => (hltrack a ha).elim
        (fun hx => hx ▸ hkmem) (fun hx => hx.1)⟩
    | some e =>
      have hek : e ≠ k := hevk e rfl
      refine ⟨h1s, ?_, ?_⟩
      · intro k2 hk2
        rcases hqtrack k2 hk2 with hx | hx
        · subst hx
          exact keys_mem_odPop hkmem (Ne.symm hek)
        · exact keys_mem_odPop hx.1 (hx.2 e rfl)
      · intro a ha
        rcases hltrack a ha with hx | hx
        · subst hx
          exact keys_mem_odPop hkmem (Ne.symm hek)
        · exact keys_mem_odPop hx.1 (hx.2 e rfl)

theorem cinv_removeData {V : Type} {c : LIRSCache V} (k : Nat)
    (h : CInv c) : CInv ⟨(odPop c.data k).2, c.stack.remove k⟩ := by
  obtain ⟨h1, hqs, hls⟩ := h
  obtain ⟨h1r, hqtrack, hltrack⟩ := remove_spec k (keysOf c.data) h1 hqs hls
  refine ⟨h1r, ?_, ?_⟩
  · intro k2 hk2
    obtain ⟨hd, hne⟩ := hqtrack k2 hk2
    exact keys_mem_odPop hd hne
  · intro a ha
    obtain ⟨hd, hne⟩ := hltrack a ha
    exact keys_mem_odPop hd hne

theorem cinv_clear {V : Type} (c : LIRSCache V) : CInv c.clear := by
  refine ⟨clear_inv1 c.stack, ?_, ?_⟩ <;> intro a ha <;>
    simp [LIRSCache.clear, LIRSStack.clear] at ha

theorem cinv_init (V : Type) (l h : Nat) : CInv (cacheInit V l h) := by
  refine ⟨init_inv1 l h, ?_, ?_⟩ <;> intro a ha <;>
    simp [cacheInit] at ha

/-- Every reachable cache state with `lirs_capacity ≥ 1` satisfies the
cache invariant. -/
theorem creach_cinv {V : Type} {c : LIRSCache V} (h : CReach c)
    (hl : 1 ≤ c.stack.lirs) : CInv c := by
  induction h with
  | init l h2 => exact cinv_init V l h2
  | get k d0 hr ih =>
    rename_i c0
    have hf := get_stack_lirs c0 k d0
    rw [hf] at hl
    exact cinv_get k d0 hl (ih hl)
  | set k v hr ih =>
    rename_i c0
    have hf : ((c0.setE k v).2).stack.lirs = c0.stack.lirs := by
      rw [setE_stack]
      exact (hit_fields c0.stack k).1
    rw [hf] at hl
    exact cinv_set k v hl (ih hl)
  | del k hr hdel ih =>
    rename_i c0 c2
    rw [del_state hdel] at hl ⊢
    have hf : (c0.stack.remove k).lirs = c0.stack.lirs :=
      (remove_fields c0.stack k).1
    rw [show (⟨(odPop c0.data k).2, c0.stack.remove k⟩ :
      LIRSCache V).stack = c0.stack.remove k from rfl, hf] at hl
    exact cinv_removeData k (ih hl)
  | pop k d0 hr ih =>
    rename_i c0
    rw [pop_state] at hl ⊢
    have hf : (c0.stack.remove k).lirs = c0.stack.lirs :=
      (remove_fields c0.stack k).1
    rw [show (⟨(odPop c0.data k).2, c0.stack.remove k⟩ :
      LIRSCache V).stack = c0.stack.remove k from rfl, hf] at hl
    exact cinv_removeData k (ih hl)
  | clear hr ih =>
    rename_i c0
    exact cinv_clear c0

/-!
LRU lemmas: size accounting, the pruning floor, oversized rejection.
-/

theorem lruPruneF_linv {V : Type} :
    ∀ (n : Nat) (c : LRUCache V), LInv c → LInv (lruPruneF n c) := by
  intro n
  induction n with
  | zero => exact fun c h => h
  | succ m ih =>
    intro c h
    obtain ⟨hnd, hsz⟩ := h
    unfold lruPruneF
    by_cases hcond : c.max_size < c.size ∧ c.min_count < c.d.length
    · rw [if_pos hcond]
      cases hd : c.d with
      | nil => exact ⟨hnd, hsz⟩
      | cons p rest =>
        obtain ⟨k, v⟩ := p
        refine ih _ ⟨?_, ?_⟩
        · have := hnd
          rw [hd] at this
          exact nodupKeys_sublist (List.sublist_cons_self _ _) this
        · show c.size - c.sizeof v = sumSz { c with d := rest, size := _ }
          rw [hsz]
          unfold sumSz
          rw [hd]
          simp only [List.map_cons, List.sum_cons]
          ring
    · rw [if_neg hcond]
      exact ⟨hnd, hsz⟩

theorem lruPrune_linv {V : Type} {c : LRUCache V} (h : LInv c) :
    LInv (lruPrune c) :=
  lruPruneF_linv _ c h

theorem lruSet_linv {V : Type} {c : LRUCache V} (k : Nat) (v : V)
    (h : LInv c) : LInv (c.set k v) := by
  obtain ⟨hnd, hsz⟩ := h
  rcases hp : odPop c.d k with ⟨stat, dd⟩
  simp only [LRUCache.set, hp]
  cases stat with
  | some old =>
    have hdd : dd = (odPop c.d k).2 := by rw [hp]
    have hstat : (odPop c.d k).1 = some old := by rw [hp]
    have hsum := odPop_some_sum (fun p => c.sizeof p.2) hstat
    have hnd1 : nodupKeys dd := hdd ▸ nodupKeys_odPop k hnd
    have hkdd : k ∉ keysOf dd := hdd ▸ not_mem_keys_odPop hnd
    by_cases hlt : c.sizeof v < c.max_size
    · rw [if_pos hlt]
      refine lruPrune_linv ⟨?_, ?_⟩
      · exact nodupKeys_odSet _ _ hnd1
      · show c.size - c.sizeof old + c.sizeof v = _
        unfold sumSz
        simp only
        rw [odSet_of_not_mem _ hkdd]
        simp only [List.map_append, List.sum_append, List.map_cons,
          List.sum_cons, List.map_nil, List.sum_nil]
        rw [hsz]
        unfold sumSz
        rw [hsum, hdd]
        simp only
        ring
    · rw [if_neg hlt]
      refine ⟨hnd1, ?_⟩
      show c.size - c.sizeof old = _
      unfold sumSz
      simp only
      rw [hsz]
      unfold sumSz
      rw [hsum, hdd]
      simp only
      ring
  | none =>
    have hknk : k ∉ keysOf c.d := by
      have hx := odPop_fst_eq_none_iff c.d k
      rw [hp] at hx
      exact hx.mp rfl
    by_cases hlt : c.sizeof v < c.max_size
    · rw [if_pos hlt]
      refine lruPrune_linv ⟨?_, ?_⟩
      · exact nodupKeys_odSet _ _ hnd
      · show c.size + c.sizeof v = _
        unfold sumSz
        simp only
        rw [odSet_of_not_mem _ hknk]
        simp only [List.map_append, List.sum_append, List.map_cons,
          List.sum_cons, List.map_nil, List.sum_nil]
        rw [hsz]
        unfold sumSz
        ring
    · rw [if_neg hlt]
      exact ⟨hnd, hsz⟩

theorem lruGet_linv {V : Type} {c : LRUCache V} (k : Nat)
    (h : LInv c) : LInv (c.getOp k).2 := by
  obtain ⟨hnd, hsz⟩ := h
  rcases hp : odPop c.d k with ⟨stat, dd⟩
  simp only [LRUCache.getOp, hp]
  cases stat with
  | none => exact ⟨hnd, hsz⟩
  | some v =>
    have hdd : dd = (odPop c.d k).2 := by rw [hp]
    have hstat : (odPop c.d k).1 = some v := by rw [hp]
    have hsum := odPop_some_sum (fun p => c.sizeof p.2) hstat
    have hnd1 : nodupKeys dd := hdd ▸ nodupKeys_odPop k hnd
    have hkdd : k ∉ keysOf dd := hdd ▸ not_mem_keys_odPop hnd
    refine ⟨nodupKeys_odSet _ _ hnd1, ?_⟩
    show c.size = _
    unfold sumSz
    simp only
    rw [odSet_of_not_mem _ hkdd]
    simp only [List.map_append, List.sum_append, List.map_cons,
      List.sum_cons, List.map_nil, List.sum_nil]
    rw [hsz]
    unfold sumSz
    rw [hsum, hdd]
    simp only
    ring

theorem lruDel_linv {V : Type} {c c2 : LRUCache V} {k : Nat}
    (hdel : c.delOp k = some c2) (h : LInv c) : LInv c2 := by
  obtain ⟨hnd, hsz⟩ := h
  rcases hp : odPop c.d k with ⟨stat, dd⟩
  rw [LRUCache.delOp, hp] at hdel
  cases stat with
  | none => exact Option.noConfusion hdel
  | some v =>
    simp only [Option.some.injEq] at hdel
    rw [← hdel]
    have hdd : dd = (odPop c.d k).2 := by rw [hp]
    have hstat : (odPop c.d k).1 = some v := by rw [hp]
    have hsum := odPop_some_sum (fun p => c.sizeof p.2) hstat
    refine ⟨hdd ▸ nodupKeys_odPop k hnd, ?_⟩
    show c.size - c.sizeof v = _
    unfold sumSz
    simp only
    rw [hsz]
    unfold sumSz
    rw [hsum, hdd]
    simp only
    ring

/-- Every reachable LRU state has distinct keys and exact size
accounting. -/
theorem lreach_linv {V : Type} {c : LRUCache V} (h : LReach c) :
    LInv c := by
  induction h with
  | init m mc f =>
    exact ⟨List.nodup_nil, rfl⟩
  | set k v hr ih => exact lruSet_linv k v ih
  | get k hr ih => exact lruGet_linv k ih
  | del k hr hdel ih => exact lruDel_linv hdel ih
  | clear hr ih =>
    exact ⟨List.nodup_nil, rfl⟩

/-- `_prune` never pops once the entry count is at the floor. -/
theorem lruPrune_noop {V : Type} (c : LRUCache V)
    (h : c.d.length ≤ c.min_count) : lruPrune c = c := by
  unfold lruPrune
  cases hn : c.d.length with
  | zero => rfl
  | succ n =>
    unfold lruPruneF
    rw [if_neg]
    intro hc
    omega

/-- `_prune` never reduces the entry count below
`min (starting count) min_count`. -/
theorem lruPruneF_floor {V : Type} :
    ∀ (n : Nat) (c : LRUCache V),
      min c.d.length c.min_count ≤ (lruPruneF n c).d.length := by
  intro n
  induction n with
  | zero =>
    intro c
    exact Nat.min_le_left _ _
  | succ m ih =>
    intro c
    unfold lruPruneF
    by_cases hcond : c.max_size < c.size ∧ c.min_count < c.d.length
    · rw [if_pos hcond]
      cases hd : c.d with
      | nil =>
        exact absurd hcond.2 (by rw [hd]; simp)
      | cons p rest =>
        obtain ⟨k, v⟩ := p
        have hx : min rest.length c.min_count ≤ (lruPruneF m { c with d := rest, size := c.size - c.sizeof v }).d.length :=
          ih { c with d := rest, size := c.size - c.sizeof v }
        have hc2 : c.min_count < rest.length + 1 := by
          rw [hd] at hcond
          simpa using hcond.2
        show min ((k, v) :: rest).length c.min_count ≤ (lruPruneF m { c with d := rest, size := c.size - c.sizeof v }).d.length
        simp only [List.length_cons]
        omega
    · rw [if_neg hcond]
      exact Nat.min_le_left _ _

/-- `__setitem__` with an oversized value: nothing is stored; when the key
was absent the cache is untouched, when it was present the old entry is
removed and its size subtracted. -/
theorem lruSet_oversized {V : Type} (c : LRUCache V) (key : Nat) (v : V)
    (h : c.max_size ≤ c.sizeof v) :
    (key ∉ keysOf c.d → c.set key v = c) ∧
    (∀ old d1, odPop c.d key = (some old, d1) →
      c.set key v = { c with d := d1, size := c.size - c.sizeof old }) := by
  constructor
  · intro hk
    rcases hpe : odPop c.d key with ⟨stat, dd⟩
    have hp : stat = none := by
      have hx := (odPop_fst_eq_none_iff c.d key).2 hk
      rw [hpe] at hx
      exact hx
    subst hp
    simp only [LRUCache.set, hpe]
    rw [if_neg (not_lt.mpr h)]
  · intro old d1 hpe
    simp only [LRUCache.set, hpe]
    rw [if_neg (by
      show ¬ c.sizeof v < c.max_size
      exact not_lt.mpr h)]

/-!
Further operation-level properties: self-eviction is impossible, removal
purges both structures, partial eviction preserves the invariants.
-/

/-- `hit` never returns the hit key itself as the evicted key: the eviction
is always popped from a queue that does not contain the key. -/
theorem hit_ev_ne {st : LIRSStack} {key e : Nat}
    (h : (st.hit key).1 = some e) : e ≠ key := by
  obtain ⟨lc, hc, s, q⟩ := st
  rcases hpop : odPop s key with ⟨stat, s1⟩
  cases stat with
  | some st0 =>
    cases st0 with
    | lir =>
      simp only [LIRSStack.hit, hpop] at h
      exact Option.noConfusion h
    | hir =>
      simp only [LIRSStack.hit, hpop] at h
      rcases hset : odSet s1 key Status.lir with _ | ⟨demoted, srest⟩
      · rw [hset] at h
        simp only at h
        by_cases hcond : (decide (key ∈ q) = false ∧
            hc ≤ (List.erase q key).length ∧ 0 < hc)
        · rw [if_pos hcond] at h
          have hknq : key ∉ q := of_decide_eq_false hcond.1
          have he : e ∈ List.erase q key := List.mem_of_mem_head? h
          intro hek
          subst hek
          exact hknq ((List.erase_sublist e q).mem he)
        · rw [if_neg hcond] at h
          exact Option.noConfusion h
      · rw [hset] at h
        simp only at h
        by_cases hcond : (decide (key ∈ q) = false ∧
            hc ≤ (List.erase q key).length ∧ 0 < hc)
        · rw [if_pos hcond] at h
          have hknq : key ∉ q := of_decide_eq_false hcond.1
          have he : e ∈ List.erase q key := List.mem_of_mem_head? h
          intro hek
          subst hek
          exact hknq ((List.erase_sublist e q).mem he)
        · rw [if_neg hcond] at h
          exact Option.noConfusion h
  | none =>
    simp only [LIRSStack.hit, hpop] at h
    by_cases hkq : key ∈ q
    · rw [if_pos hkq] at h
      exact Option.noConfusion h
    · rw [if_neg hkq] at h
      by_cases hlen : s.length < lc
      · rw [if_pos hlen] at h
        exact Option.noConfusion h
      · rw [if_neg hlen] at h
        simp only at h
        by_cases hcond : (hc ≤ q.length ∧ 0 < hc)
        · rw [if_pos hcond] at h
          have he : e ∈ q := List.mem_of_mem_head? h
          intro hek
          subst hek
          exact hkq he
        · rw [if_neg hcond] at h
          exact Option.noConfusion h

/-- `remove(key)` always purges `key` from both `s` and `q`. -/
theorem remove_purges {st : LIRSStack} (key : Nat) (h0 : Inv0 st) :
    key ∉ keysOf (st.remove key).s ∧ key ∉ (st.remove key).q := by
  obtain ⟨lc, hc, s, q⟩ := st
  obtain ⟨hnds, hndq, hqh⟩ := h0
  simp only [qHir] at hqh
  simp only at hnds hndq hqh
  rcases hpop : odPop s key with ⟨stat, s1⟩
  have hknk1 : key ∉ keysOf s1 := by
    cases stat
    · have hx := odPop_fst_eq_none_iff s key
      rw [hpop] at hx
      have hs1 : s1 = s := by
        have := odPop_none_eq (hx.mp rfl)
        rw [hpop] at this
        exact this
      rw [hs1]
      exact hx.mp rfl
    · have := not_mem_keys_odPop (l := s) (k := key) hnds
      rw [hpop] at this
      exact this
  cases stat with
  | some st0 =>
    cases st0 with
    | lir =>
      have hkeymem : (key, Status.lir) ∈ s := by
        have := odPop_some_mem (l := s) (k := key) (v := Status.lir)
        rw [hpop] at this
        exact this rfl
      have hknq : key ∉ q := qHir_key_not_mem hqh hkeymem rfl
      cases hq0 : q with
      | nil =>
        subst hq0
        simp only [LIRSStack.remove, hpop]
        constructor
        · intro hk
          exact hknk1 ((keysOf_sublist (List.filter_sublist _)).mem hk)
        · simp
      | cons newLirs qrest =>
        subst hq0
        simp only [LIRSStack.remove, hpop]
        have hnlk : newLirs ≠ key :=
          fun hx => hknq (hx ▸ List.mem_cons_self _ _)
        constructor
        · intro hk
          have hk2 := (keysOf_sublist (pruneList_sublist _)).mem hk
          rw [keysOf_odSet] at hk2
          by_cases hmem : newLirs ∈ keysOf s1
          · rw [if_pos hmem] at hk2
            exact hknk1 hk2
          · rw [if_neg hmem] at hk2
            rcases List.mem_append.1 hk2 with hx | hx
            · exact hknk1 hx
            · exact hnlk (List.mem_singleton.1 hx).symm
        · intro hk
          exact (hndq.of_cons).not_mem_erase hk
    | hir =>
      simp only [LIRSStack.remove, hpop]
      exact ⟨hknk1, fun hk => hndq.not_mem_erase hk⟩
  | none =>
    simp only [LIRSStack.remove, hpop]
    exact ⟨hknk1, fun hk => hndq.not_mem_erase hk⟩

/-- Partial consumption of `evict()` preserves the structural invariant
and invariant I1. -/
theorem evictRun_inv (n : Nat) {st : LIRSStack} (h0 : Inv0 st)
    (hh : headLIR st.s) :
    Inv0 (evictRun n st).2 ∧ headLIR ((evictRun n st).2).s := by
  induction n generalizing st with
  | zero => exact ⟨h0, hh⟩
  | succ m ih =>
    cases hstep : st.evictStep with
    | none =>
      simp only [evictRun, hstep]
      exact ⟨h0, hh⟩
    | some r =>
      obtain ⟨k, st2⟩ := r
      obtain ⟨h02, hh2⟩ := evictStep_inv hstep h0 hh
      simp only [evictRun, hstep]
      exact ih h02 hh2

/-!
The claims.
-/

/-- C1: with `lirs_capacity = 3`, `hirs_capacity = 2`, storing keys
8,4,1,8,4,9,6,1,2,3,5 (each access a set/hit) leaves exactly the resident
set `{1, 3, 4, 5, 8}` of length 5; then touching 4, 8, 3, 5 and inserting
the new key 7 evicts key 1; then touching 9 evicts key 5; then touching 5
again evicts key 7. -/
theorem C1_lirs_scenario :
    (keysOf demoCache.data).Perm [1, 3, 4, 5, 8] ∧
    demoCache.data.length = 5 ∧
    (demoTouched.setE 7 true).1 = some 1 ∧
    (((demoTouched.setE 7 true).2).setE 9 true).1 = some 5 ∧
    (((((demoTouched.setE 7 true).2).setE 9 true).2).setE 5 true).1 =
      some 7 := by
  decide

/-- C2 (amended): `set(key, value)` with `sizeof(value) ≥ max_size` never
stores the value; when `key` was absent from the cache the state is left
completely unchanged, but when `key` was present its old entry is removed
and its size subtracted from `total_size`. -/
theorem C2_oversized_set {V : Type} (c : LRUCache V) (key : Nat) (v : V)
    (h : c.max_size ≤ c.sizeof v) :
    (key ∉ keysOf c.d → c.set key v = c) ∧
    (∀ old d1, odPop c.d key = (some old, d1) →
      c.set key v = { c with d := d1, size := c.size - c.sizeof old }) :=
  lruSet_oversized c key v h

/-- C2 counterexample: on a cache holding key 1 (size 5, budget 10),
setting key 1 to the oversized value 10 changes the stored contents (the
old entry disappears), contradicting the claim that contents and
`total_size` stay exactly as they were. -/
theorem C2_oversized_set_cex :
    lruEx.max_size ≤ lruEx.sizeof 10 ∧
    ¬ ((lruEx.set 1 10).d = lruEx.d ∧
       (lruEx.set 1 10).size = lruEx.size) := by
  decide

/-- C2 witness: the amended claim at the concrete cache `lruEx`. -/
theorem C2_oversized_set_witness :
    (1 ∉ keysOf lruEx.d → lruEx.set 1 10 = lruEx) ∧
    (∀ old d1, odPop lruEx.d 1 = (some old, d1) →
      lruEx.set 1 10 =
        { lruEx with d := d1, size := lruEx.size - lruEx.sizeof old }) :=
  C2_oversized_set lruEx 1 10 (by decide)

/-- C3 (amended): `pop(key, default)` removes `key` from storage and purges
it from both `s` and `q`, even when `key` was absent from storage; `del`
does the same when `key` is present in storage, but raises `KeyError`
(returning `none`, no purge) when `key` is absent. -/
theorem C3_delete_purges {V : Type} (c : LIRSCache V) (key : Nat) (d0 : V)
    (h : nodupKeys c.data ∧ Inv0 c.stack) :
    (key ∉ keysOf ((c.pop key d0).2).data ∧
     key ∉ keysOf ((c.pop key d0).2).stack.s ∧
     key ∉ ((c.pop key d0).2).stack.q) ∧
    (∀ c2, c.del key = some c2 →
      key ∉ keysOf c2.data ∧ key ∉ keysOf c2.stack.s ∧ key ∉ c2.stack.q) ∧
    (key ∉ keysOf c.data → c.del key = none) := by
  obtain ⟨hnd, h0⟩ := h
  obtain ⟨hs, hq⟩ := remove_purges key h0
  have hdata : key ∉ keysOf (odPop c.data key).2 := not_mem_keys_odPop hnd
  refine ⟨⟨hdata, hs, hq⟩, ?_, ?_⟩
  · intro c2 hdel
    rw [del_state hdel]
    exact ⟨hdata, hs, hq⟩
  · intro hk
    unfold LIRSCache.del
    rcases hp : odPop c.data key with ⟨stat, dd⟩
    have hst : stat = none := by
      have hx := (odPop_fst_eq_none_iff c.data key).2 hk
      rw [hp] at hx
      exact hx
    subst hst
    rfl

/-- C3 counterexample: key 2 is tracked in `s` but absent from storage;
`del cache[2]` raises `KeyError` (modelled as `none`) and performs no
purge, contradicting the claim that the policy purge happens even when the
key is absent from storage. -/
theorem C3_delete_purges_cex :
    2 ∉ keysOf c3state.data ∧ 2 ∈ keysOf c3state.stack.s ∧
    c3state.del 2 = none := by
  decide

/-- C3 witness: the amended claim at the concrete cache `c3state` and
key 2. -/
theorem C3_delete_purges_witness :
    (2 ∉ keysOf ((c3state.pop 2 true).2).data ∧
     2 ∉ keysOf ((c3state.pop 2 true).2).stack.s ∧
     2 ∉ ((c3state.pop 2 true).2).stack.q) ∧
    (∀ c2, c3state.del 2 = some c2 →
      2 ∉ keysOf c2.data ∧ 2 ∉ keysOf c2.stack.s ∧ 2 ∉ c2.stack.q) ∧
    (2 ∉ keysOf c3state.data → c3state.del 2 = none) :=
  C3_delete_purges c3state 2 true (by decide)

/-- C4 (amended): invariant I1 — on every reachable stack state whose
`lirs_capacity` is at least 1, whenever `s` is non-empty its head (oldest)
entry has status LIR.  (With `lirs_capacity = 0` the invariant fails, see
the counterexample.) -/
theorem C4_head_lir {st : LIRSStack} (h : SReach st) (hl : 1 ≤ st.lirs) :
    headLIR st.s :=
  ((sreach_inv1 h hl).2).1

/-- C4 counterexample: a stack created with `lirs_capacity = 0` reaches,
after a single `hit`, a state whose non-empty `s` has an HIR head. -/
theorem C4_head_lir_cex :
    SReach c4bad ∧ c4bad.s ≠ [] ∧ ¬ headLIR c4bad.s :=
  ⟨SReach.hit 5 (SReach.init 0 1), by decide, by decide⟩

/-- C4 witness: invariant I1 at a concrete reachable state. -/
theorem C4_head_lir_witness :
    headLIR (((⟨1, 1, [], []⟩ : LIRSStack).hit 5).2).s :=
  C4_head_lir (SReach.hit 5 (SReach.init 1 1)) (by decide)

/-- C5 (amended): invariant I2 — on every reachable cache state whose
`lirs_capacity` is at least 1, every key in `q` is present in storage, and
`|q| ≤ hirs_capacity` whenever `hirs_capacity > 0`.  (With
`lirs_capacity = 0` residency fails, see the counterexample.) -/
theorem C5_invariant_I2 {V : Type} {c : LIRSCache V} (h : CReach c)
    (hl : 1 ≤ c.stack.lirs) :
    (∀ k ∈ c.stack.q, k ∈ keysOf c.data) ∧
    (0 < c.stack.hirs → c.stack.q.length ≤ c.stack.hirs) := by
  obtain ⟨h1, hqs, hls⟩ := creach_cinv h hl
  exact ⟨hqs, h1.2.2.2⟩

/-- C5 counterexample: with `lirs_capacity = 0`, after the four stores
1, 2, 3, 1 the queue holds key 2 while storage holds only key 1. -/
theorem C5_invariant_I2_cex :
    CReach c5state ∧
    ¬ ((∀ k ∈ c5state.stack.q, k ∈ keysOf c5state.data) ∧
       (0 < c5state.stack.hirs →
         c5state.stack.q.length ≤ c5state.stack.hirs)) :=
  ⟨CReach.set 1 true (CReach.set 3 true (CReach.set 2 true
    (CReach.set 1 true (CReach.init 0 1)))), by decide⟩

/-- C5 witness: invariant I2 at a concrete reachable cache state. -/
theorem C5_invariant_I2_witness :
    (∀ k ∈ smallCache.stack.q, k ∈ keysOf smallCache.data) ∧
    (0 < smallCache.stack.hirs →
      smallCache.stack.q.length ≤ smallCache.stack.hirs) :=
  C5_invariant_I2 (CReach.set 1 true (CReach.init 1 1)) (by decide)

/-- C6: for every sequence of LRU operations from a fresh cache (with the
pure `sizeof` fixed at construction), `total_size` equals the sum of
`sizeof(v)` over the currently stored values. -/
theorem C6_size_accounting {V : Type} {c : LRUCache V} (h : LReach c) :
    c.size = sumSz c :=
  (lreach_linv h).2

/-- C6 witness: size accounting at a concrete reachable LRU state. -/
theorem C6_size_accounting_witness :
    ((lruInit 10 2 (fun v : Int => v)).set 1 3).size =
      sumSz ((lruInit 10 2 (fun v : Int => v)).set 1 3) :=
  C6_size_accounting (LReach.set 1 3 (LReach.init 10 2 (fun v : Int => v)))

/-- C7: size-driven pruning never evicts while the entry count is at or
below `min_count` (even when `total_size` exceeds `max_size`), and never
reduces the entry count below `min_count`. -/
theorem C7_prune_floor {V : Type} (c : LRUCache V) :
    (c.d.length ≤ c.min_count → lruPrune c = c) ∧
    min c.d.length c.min_count ≤ (lruPrune c).d.length :=
  ⟨lruPrune_noop c, lruPruneF_floor c.d.length c⟩

/-- C7 witness: the pruning floor at a concrete over-budget state at its
entry-count floor. -/
theorem C7_prune_floor_witness :
    (lruFloorEx.d.length ≤ lruFloorEx.min_count →
      lruPrune lruFloorEx = lruFloorEx) ∧
    min lruFloorEx.d.length lruFloorEx.min_count ≤
      (lruPrune lruFloorEx).d.length :=
  C7_prune_floor lruFloorEx

/-- C8: `evict()` is deterministic and prefix-stable under partial
consumption — consuming `n` keys and then starting a fresh `evict()` on the
abandoned state yields exactly the remaining suffix of the full sequence —
and the intermediate state still satisfies the stack invariants (`Inv0` and
invariant I1). -/
theorem C8_evict_prefix {st : LIRSStack} (n : Nat) (h0 : Inv0 st)
    (hh : headLIR st.s) :
    st.evictAll = (evictRun n st).1 ++ ((evictRun n st).2).evictAll ∧
    Inv0 (evictRun n st).2 ∧ headLIR ((evictRun n st).2).s :=
  ⟨evictAll_evictRun n st, evictRun_inv n h0 hh⟩

/-- C8 witness: prefix stability after consuming three keys of the
reference scenario's stack. -/
theorem C8_evict_prefix_witness :
    demoCache.stack.evictAll =
      (evictRun 3 demoCache.stack).1 ++
        ((evictRun 3 demoCache.stack).2).evictAll ∧
    Inv0 (evictRun 3 demoCache.stack).2 ∧
    headLIR ((evictRun 3 demoCache.stack).2).s :=
  C8_evict_prefix 3 (by decide) (by decide)

/-- C9: `get(key, default)` on a key absent from storage returns `default`
and leaves the entire cache state (storage, `s` and `q`) unchanged: no hit
is recorded. -/
theorem C9_get_absent_frame {V : Type} (c : LIRSCache V) (key : Nat)
    (d0 : V) (h : key ∉ keysOf c.data) :
    c.get key d0 = (d0, c) := by
  unfold LIRSCache.get
  rw [(odLookup_eq_none_iff c.data key).2 h]

/-- C9 witness: a miss on the concrete cache `smallCache`. -/
theorem C9_get_absent_frame_witness :
    smallCache.get 2 false = (false, smallCache) :=
  C9_get_absent_frame smallCache 2 false (by decide)

/-- C10: `hit(key)` never returns `key` itself as the evicted key, and
consequently `set(key, value)` always ends with `key` stored and mapped to
`value`, even when the set triggers an eviction. -/
theorem C10_no_self_eviction {V : Type} (st : LIRSStack) (key : Nat)
    (c : LIRSCache V) (v : V) :
    (∀ e, (st.hit key).1 = some e → e ≠ key) ∧
    odLookup ((c.setE key v).2).data key = some v :=
  ⟨fun _ he => hit_ev_ne he, odLookup_odSet_self _ _ _⟩

/-- C10 witness: the property at a concrete stack and cache. -/
theorem C10_no_self_eviction_witness :
    (∀ e, ((⟨1, 1, [], []⟩ : LIRSStack).hit 5).1 = some e → e ≠ 5) ∧
    odLookup (((cacheInit Bool 1 1).setE 5 true).2).data 5 = some true :=
  C10_no_self_eviction ⟨1, 1, [], []⟩ 5 (cacheInit Bool 1 1) true
